import Mathlib

/-!
# Link shortener: the link store of `Link Shorter/main.go`

A shallow embedding of the store operations of the Go program: the two global
maps `links` and `ipLinks`, the readers-writer lock `mutex` that guards them,
the snapshot file `data/links.json`, and the handlers that work on them.

Conventions of the embedding.

* Go strings are Lean strings; the `strings` functions used by the program are
  written over the character lists.
* `time.Time` is the instant it denotes, an integer number of nanoseconds.
* Go's `int` is the 64-bit two's-complement integer: a value between `minInt`
  and `maxInt`, held in an `Int`, and every result of arithmetic on it is
  brought back into that range by `wrapInt`.
* A Go map is an association list with distinct keys; the order of its entries
  stands for the order in which a `range` loop happens to visit the map, so a
  statement about every map is a statement about every visiting order.
* A handler runs alone, from its first statement to its return. A lock
  operation that cannot proceed then never will, which is the outcome
  `blocked`.
-/

namespace LinkShorter

/-! ## Data model -/

/-- Go `type Link struct`. A `time.Time` is the instant it denotes, in
nanoseconds. `Visits` is a Go `int`: it holds a value from `minInt` to
`maxInt`, and the one operation on it, `Visits++`, goes through `wrapInt`. -/
structure Link where
  OriginalURL : String
  ShortCode : String
  CreatedAt : Int
  IP : String
  Visits : Int
deriving DecidableEq

/-- Go `type LinkStats struct`. -/
structure LinkStats where
  ShortCode : String
  OriginalURL : String
  Visits : Int
  CreatedAt : Int
  IP : String
deriving DecidableEq

/-- Go `map[string]V`: finitely many entries with pairwise distinct keys. -/
abbrev GoMap (V : Type) := AList (fun _ : String => V)

/-- State of the `sync.RWMutex`: free, held by `k` readers, or held by one
writer. The lock is not reentrant. -/
inductive RWMutex where
  | free
  | readers (k : Nat)
  | writer
deriving DecidableEq

/-- What `data/links.json` holds, as `loadDatabase` tells the cases apart: no
file, a file that cannot be read, a file that does not parse, or the JSON
encoding of a list of records (encoding and decoding taken as exact). -/
inductive DbFile where
  | missing
  | unreadable
  | malformed
  | snapshot (records : List Link)
deriving DecidableEq

/-- The process state the handlers see: the global variables `links`,
`ipLinks` and `mutex`, the file named by `dbFile`, the values the random
source will return next, and the number of goroutines started so far. -/
structure World where
  links : GoMap Link
  ipLinks : GoMap (List String)
  mutex : RWMutex
  dbFile : DbFile
  rand : Nat → Nat
  spawned : Nat

/-- How the run of a piece of code ends: it returns a value, it waits for the
lock for ever, or it dies in a run-time panic. -/
inductive Outcome (α : Type) where
  | done (value : α) (w : World)
  | blocked (w : World)
  | fatal (w : World)

/-- Code that runs on the process state. -/
def Exec (α : Type) : Type := World → Outcome α

/-- Sequencing: the second part runs only when the first has returned. -/
def Exec.bind {α β : Type} (m : Exec α) (f : α → Exec β) : Exec β := fun w =>
  match m w with
  | .done a w1 => f a w1
  | .blocked w1 => .blocked w1
  | .fatal w1 => .fatal w1

instance : Monad Exec where
  pure a := fun w => .done a w
  bind := Exec.bind

/-- The current process state. -/
def getWorld : Exec World := fun w => .done w w

/-- Assignment to the global variables. -/
def setWorld (w1 : World) : Exec Unit := fun _ => .done () w1

/-- What an HTTP handler sends back: a redirect, or an HTML page (whose text
is not modelled). -/
inductive Response where
  | redirect (location : String)
  | page
deriving DecidableEq

/-! ## The lock -/

/-- The call `mutex.Lock()`: granted when the lock is free. -/
def mutexLock : Exec Unit := fun w =>
  match w.mutex with
  | .free => .done () { w with mutex := .writer }
  | _ => .blocked w

/-- The call `mutex.Unlock()`: a run-time error unless a writer holds the lock. -/
def mutexUnlock : Exec Unit := fun w =>
  match w.mutex with
  | .writer => .done () { w with mutex := .free }
  | _ => .fatal w

/-- The call `mutex.RLock()`: granted unless a writer holds the lock. -/
def mutexRLock : Exec Unit := fun w =>
  match w.mutex with
  | .free => .done () { w with mutex := .readers 1 }
  | .readers k => .done () { w with mutex := .readers (k + 1) }
  | .writer => .blocked w

/-- The call `mutex.RUnlock()`: a run-time error unless a reader holds the lock. -/
def mutexRUnlock : Exec Unit := fun w =>
  match w.mutex with
  | .readers (k + 2) => .done () { w with mutex := .readers (k + 1) }
  | .readers 1 => .done () { w with mutex := .free }
  | _ => .fatal w

/-! ## Library functions the program calls -/

/-- Go `strings.HasPrefix`. -/
def HasPrefix (s p : String) : Bool := p.data.isPrefixOf s.data

/-- Go `strings.TrimPrefix`. -/
def TrimPrefix (s p : String) : String :=
  if HasPrefix s p then String.mk (s.data.drop p.data.length) else s

/-- The least value of Go's `int`, `-2^63`. -/
def minInt : Int := -9223372036854775808

/-- The largest value of Go's `int`, `2^63 - 1`. -/
def maxInt : Int := 9223372036854775807

/-- The value a Go `int` holds after an operation whose exact result is `x`:
`x` reduced modulo `2^64` into the range from `minInt` to `maxInt`. -/
def wrapInt (x : Int) : Int := (x - minInt) % 18446744073709551616 + minInt

/-- Go `rand.Intn(n)` on the next raw value of the source: a value below `n`. -/
def Intn (raw n : Nat) : Nat := raw % n

/-- Go `time.After`, on the instants of the two times. -/
def After (t u : Int) : Bool := decide (u < t)

/-! ## generateCode -/

/-- The constant `letters` of `generateCode`. -/
def letters : String := "abcdefghijklmnopqrstuvwxyzABCDEFGHIJKLMNOPQRSTUVWXYZ0123456789"

/-- The bytes `generateCode` writes: position `i` gets
`letters[rand.Intn(len(letters))]` from the `i`-th value of the source. -/
def codeBytes (length : Nat) (rand : Nat → Nat) : List Char :=
  (List.range length).map fun i => letters.data.getD (Intn (rand i) letters.data.length) 'a'

/-- Go `generateCode(length)`: the string built, with the random source
advanced past the `length` values it used. -/
def generateCode (length : Nat) : Exec String := fun w =>
  .done (String.mk (codeBytes length w.rand)) { w with rand := fun i => w.rand (i + length) }

/-! ## Persistence -/

/-- Go `saveDatabase`: under the read lock, copy every record of `links` into
a slice and write its encoding over the file; the deferred `RUnlock` runs at
the return. Encoding records cannot fail, and the write is taken to succeed
(a failed write is only logged). -/
def saveDatabase : Exec Unit := do
  mutexRLock
  let w ← getWorld
  let allLinks := w.links.entries.map fun e => e.2
  setWorld { w with dbFile := .snapshot allLinks }
  mutexRUnlock

/-- The loop of `loadDatabase` over the decoded records, one step:
`links[link.ShortCode] = link` and
`ipLinks[link.IP] = append(ipLinks[link.IP], link.ShortCode)`. -/
def loadStep (acc : GoMap Link × GoMap (List String)) (link : Link) :
    GoMap Link × GoMap (List String) :=
  (acc.1.insert link.ShortCode link,
   acc.2.insert link.IP (((acc.2.lookup link.IP).getD []) ++ [link.ShortCode]))

/-- Go `loadDatabase`: under the write lock, leave the maps alone when the
file is missing, unreadable or unparsable, and otherwise rebuild both maps
from the decoded records; the deferred `Unlock` runs at the return. -/
def loadDatabase : Exec Unit := do
  mutexLock
  let w ← getWorld
  match w.dbFile with
  | .missing => mutexUnlock
  | .unreadable => mutexUnlock
  | .malformed => mutexUnlock
  | .snapshot loadedLinks =>
    let maps := loadedLinks.foldl loadStep (∅, ∅)
    setWorld { w with links := maps.1, ipLinks := maps.2 }
    mutexUnlock

/-! ## Handlers -/

/-- The URL the `/shorten` handler stores: the submitted one, with `https://`
put in front unless it starts with `http://` or `https://`. -/
def normalizeURL (url : String) : String :=
  if !HasPrefix url "http://" && !HasPrefix url "https://" then "https://" ++ url else url

/-- The `/shorten` handler, on the request method, the form value `url`, the
requester address `getIP(r)`, the domain `getCurrentDomain(r)` and the value of
`time.Now()`. -/
def shortenHandler (method url ip domain : String) (now : Int) : Exec Response :=
  if method != "POST" then pure (.redirect "/")
  else if url == "" then pure (.redirect "/")
  else do
    let url := normalizeURL url
    let shortCode ← generateCode 6
    let link : Link :=
      { OriginalURL := url, ShortCode := shortCode, CreatedAt := now, IP := ip, Visits := 0 }
    mutexLock
    let w ← getWorld
    setWorld { w with
      links := w.links.insert shortCode link,
      ipLinks := w.ipLinks.insert ip (((w.ipLinks.lookup ip).getD []) ++ [shortCode]) }
    mutexUnlock
    saveDatabase
    pure (.redirect ("/?result=" ++ domain ++ "/" ++ shortCode))

/-- The redirect branch of the `/` handler for a short code: look the code up
under the read lock; when it is there, add one to the visit count of the
record under the write lock (the handler holds a pointer to the record that
is in the map; `link.Visits++` on a Go `int` wraps), start the goroutine that
saves the database, and redirect to
the original URL. The result `none` stands for falling through to the form. -/
def resolve (shortCode : String) : Exec (Option String) := do
  mutexRLock
  let w ← getWorld
  let found := w.links.lookup shortCode
  mutexRUnlock
  match found with
  | some link =>
    mutexLock
    let w ← getWorld
    setWorld { w with
      links := w.links.replace shortCode { link with Visits := wrapInt (link.Visits + 1) } }
    mutexUnlock
    let w ← getWorld
    setWorld { w with spawned := w.spawned + 1 }
    pure (some link.OriginalURL)
  | none => pure none

/-- The `/` handler on the request path. -/
def rootHandler (path : String) : Exec Response :=
  if path != "/" then do
    match ← resolve (TrimPrefix path "/") with
    | some target => pure (.redirect target)
    | none => pure .page
  else pure .page

/-- The `/delete/` handler on the code `strings.TrimPrefix(r.URL.Path, "/delete/")`
and the requester address `getIP(r)`. The deferred `Unlock` runs at the
return. -/
def deleteHandler (code ip : String) : Exec Response :=
  if code == "" then pure (.redirect "/my")
  else do
    mutexLock
    let w ← getWorld
    match w.links.lookup code with
    | some link =>
      if link.IP == ip then do
        setWorld { w with links := w.links.erase code }
        let w ← getWorld
        match w.ipLinks.lookup ip with
        | some codes =>
          setWorld { w with ipLinks := w.ipLinks.replace ip (codes.filter fun c => c != code) }
        | none => pure ()
        saveDatabase
      else pure ()
    | none => pure ()
    mutexUnlock
    pure (.redirect "/my")

/-! ## getTopLinks -/

/-- The `LinkStats` value `getTopLinks` builds for the map entry `code ↦ link`. -/
def statsOf (code : String) (link : Link) : LinkStats :=
  { ShortCode := code, OriginalURL := link.OriginalURL, Visits := link.Visits,
    CreatedAt := link.CreatedAt, IP := link.IP }

/-- The comparison `getTopLinks` passes to `sort.Slice`, on the two elements
compared. -/
def lessTop (a b : LinkStats) : Bool :=
  if a.Visits == b.Visits then After a.CreatedAt b.CreatedAt
  else decide (a.Visits > b.Visits)

/-- Go `getTopLinks(n)`. The library routine `sort.Slice` is the argument
`sortSlice`, applied to the comparison and the slice. -/
def getTopLinks (sortSlice : (LinkStats → LinkStats → Bool) → List LinkStats → List LinkStats)
    (n : Int) (w : World) : List LinkStats :=
  let stats := w.links.entries.map fun e => statsOf e.1 e.2
  let stats := sortSlice lessTop stats
  if n > 0 ∧ n < (stats.length : Int) then stats.take n.toNat else stats

/-- What the documentation of package `sort` asks of a comparison: a strict
ordering in which both "less" and "not less" are transitive. -/
def TransitiveOrdering {α : Type} (less : α → α → Bool) : Prop :=
  (∀ a, less a a = false) ∧
  (∀ a b c, less a b = true → less b c = true → less a c = true) ∧
  (∀ a b c, less a b = false → less b c = false → less a c = false)

/-- What the documentation of `sort.Slice` promises: the elements are
rearranged, and for a comparison as above no element is less than the one
before it. Nothing is promised about the order of equal elements. -/
def SortContract {α : Type} (sortSlice : (α → α → Bool) → List α → List α) : Prop :=
  ∀ (less : α → α → Bool) (l : List α),
    (sortSlice less l).Perm l ∧
    (TransitiveOrdering less → (sortSlice less l).Chain' fun a b => less b a = false)

/-- One routine that meets the contract of `sort.Slice`: insertion sort. -/
def insertionSortBy {α : Type} (less : α → α → Bool) (l : List α) : List α :=
  l.insertionSort fun a b => less b a = false

/-! ## Predicates used in the statements -/

/-- Every record of the table is filed under its own short code: the meaning
of the declaration `links = make(map[string]*Link) // short_code -> Link`. -/
def WellKeyed (links : GoMap Link) : Prop :=
  ∀ (k : String) (l : Link), links.lookup k = some l → l.ShortCode = k

/-- Go `ipLinks[ip]`: the list stored for the address, empty when there is none. -/
def codesOf (ipLinks : GoMap (List String)) (ip : String) : List String :=
  (ipLinks.lookup ip).getD []

/-- A character that may stand in a URI scheme name after its first letter. -/
def schemeChar (ch : Char) : Bool :=
  ch.isAlphanum || ch == '+' || ch == '-' || ch == '.'

/-- The text carries a scheme, in the sense of a `<scheme>://` start: a
letter, then letters, digits, `+`, `-` or `.`, then `://`. -/
def carriesScheme (url : String) : Bool :=
  let name := url.data.takeWhile schemeChar
  match name with
  | [] => false
  | first :: _ => first.isAlpha && "://".data.isPrefixOf (url.data.drop name.length)

/-! ## Sample states -/

/-- The random source that returns 0, 1, 2, ... -/
def countingSource : Nat → Nat := fun i => i

/-- A freshly started process with no snapshot file. -/
def freshWorld : World :=
  { links := ∅, ipLinks := ∅, mutex := .free, dbFile := .missing,
    rand := countingSource, spawned := 0 }

/-- A record for `https://example.com`, created by `1.1.1.1`. -/
def sampleLink : Link :=
  { OriginalURL := "https://example.com", ShortCode := "aZ3kq1", CreatedAt := 1000,
    IP := "1.1.1.1", Visits := 0 }

/-- A second record of the same owner, visited twice. -/
def otherLink : Link :=
  { OriginalURL := "http://go.dev", ShortCode := "Qw12er", CreatedAt := 2000,
    IP := "1.1.1.1", Visits := 2 }

/-- The first sample record, visited as often as a Go `int` can count. -/
def fullLink : Link :=
  { OriginalURL := "https://example.com", ShortCode := "aZ3kq1", CreatedAt := 1000,
    IP := "1.1.1.1", Visits := 9223372036854775807 }

/-- A process started on a snapshot file that holds that record. -/
def fullWorld : World :=
  { links := AList.singleton "aZ3kq1" fullLink,
    ipLinks := AList.singleton "1.1.1.1" ["aZ3kq1"],
    mutex := .free, dbFile := .snapshot [fullLink], rand := countingSource, spawned := 0 }

/-- A process holding the two sample records. -/
def sampleWorld : World :=
  { links := (AList.singleton "aZ3kq1" sampleLink).insert "Qw12er" otherLink,
    ipLinks := AList.singleton "1.1.1.1" ["aZ3kq1", "Qw12er"],
    mutex := .free, dbFile := .missing, rand := countingSource, spawned := 0 }

/-! ## The `/my` handler -/

/-- The `LinkStats` value the `/my` handler builds for the code `code` of the
requester and the record `link` found under it; the field `IP` is left at its
zero value. -/
def ownerStats (code : String) (link : Link) : LinkStats :=
  { ShortCode := code, OriginalURL := link.OriginalURL, Visits := link.Visits,
    CreatedAt := link.CreatedAt, IP := "" }

/-- The comparison the `/my` handler passes to `sort.Slice`. -/
def lessVisits (a b : LinkStats) : Bool := decide (a.Visits > b.Visits)

/-- The slice `userLinks` of the `/my` handler: nothing when `ipLinks[ip]` is
empty, and otherwise the entries built for those codes of `ipLinks[ip]` that
are keys of `links`, sorted by `sort.Slice` (the argument `sortSlice`). -/
def userLinks (sortSlice : (LinkStats → LinkStats → Bool) → List LinkStats → List LinkStats)
    (ip : String) (w : World) : List LinkStats :=
  let userCodes := codesOf w.ipLinks ip
  if userCodes.length == 0 then []
  else sortSlice lessVisits
    (userCodes.filterMap fun code => (w.links.lookup code).map fun link => ownerStats code link)

/-- The `/my` handler on the requester address `getIP(r)`: everything between
`mutex.RLock()` and `mutex.RUnlock()`. The value is the list of entries the
page shows (the HTML text is not modelled). -/
def myHandler (sortSlice : (LinkStats → LinkStats → Bool) → List LinkStats → List LinkStats)
    (ip : String) : Exec (List LinkStats) := do
  mutexRLock
  let w ← getWorld
  let listed := userLinks sortSlice ip w
  mutexRUnlock
  pure listed

/-! ## Sequences of operations -/

/-- The process state at the point where a run ends: at the return, or where
the code waits for the lock or dies. -/
def Outcome.world {α : Type} : Outcome α → World
  | .done _ w => w
  | .blocked w => w
  | .fatal w => w

/-- A store operation with its arguments: Create is a request to `/shorten`,
Resolve a request for a short code, Delete a request to `/delete/`. -/
inductive Op where
  | create (method url ip domain : String) (now : Int)
  | resolve (shortCode : String)
  | delete (code ip : String)
deriving DecidableEq

/-- The process state after the handler of the operation has run alone. -/
def Op.after (op : Op) (w : World) : World :=
  match op with
  | .create method url ip domain now => (shortenHandler method url ip domain now w).world
  | .resolve shortCode => (LinkShorter.resolve shortCode w).world
  | .delete code ip => (deleteHandler code ip w).world

/-- The process state after the operations have run one after the other. -/
def runOps (ops : List Op) (w : World) : World :=
  ops.foldl (fun v op => op.after v) w

/-- The operation is a Create that generates a code which is already a key of
the record table. -/
def Op.collides (op : Op) (w : World) : Bool :=
  match op with
  | .create method url _ _ _ =>
    method == "POST" && url != "" && (w.links.lookup (String.mk (codeBytes 6 w.rand))).isSome
  | _ => false

/-- The operation is a Create that generates the code `c`: a POST with a
non-empty URL, for which `generateCode(6)` returns `c`. -/
def Op.generates (op : Op) (w : World) (c : String) : Bool :=
  match op with
  | .create method url _ _ _ =>
    method == "POST" && url != "" && String.mk (codeBytes 6 w.rand) == c
  | _ => false

/-- No Create of the sequence, run from `w`, generates a code that is already
a key of the record table at that moment. -/
def collisionFree : List Op → World → Bool
  | [], _ => true
  | op :: ops, w => !op.collides w && collisionFree ops (op.after w)

/-- The empty store: a process started without a snapshot file, with the given
random source. -/
def emptyStore (rand : Nat → Nat) : World :=
  { links := ∅, ipLinks := ∅, mutex := .free, dbFile := .missing, rand := rand, spawned := 0 }

/-- The owner index agrees with the record table: the list of every address
has no code twice and holds exactly the codes of the records owned by it. -/
def Consistent (w : World) : Prop :=
  ∀ ip : String, (codesOf w.ipLinks ip).Nodup ∧
    ∀ c : String, c ∈ codesOf w.ipLinks ip ↔ ∃ link, w.links.lookup c = some link ∧ link.IP = ip

/-- The list shows exactly the live records owned by `ip`, each once, and
nothing else: every record of the table owned by `ip` has its entry (its
code, original URL, visit count and creation time, the field `IP` left empty)
exactly once, every entry carries the code, original URL, visit count and
creation time of a record of the table owned by `ip`, and no code is listed
twice. -/
def OwnerListing (listed : List LinkStats) (ip : String) (w : World) : Prop :=
  (∀ (c : String) (link : Link), w.links.lookup c = some link → link.IP = ip →
    listed.count { ShortCode := c, OriginalURL := link.OriginalURL, Visits := link.Visits,
                   CreatedAt := link.CreatedAt, IP := "" } = 1) ∧
  (∀ e ∈ listed, ∃ link, w.links.lookup e.ShortCode = some link ∧ link.IP = ip ∧
    e.OriginalURL = link.OriginalURL ∧ e.Visits = link.Visits ∧
    e.CreatedAt = link.CreatedAt ∧ e.IP = "") ∧
  (listed.map LinkStats.ShortCode).Nodup

/-- The record of `c` has gone through the operation as a record should: it is
still there with the same original URL, creation time and owner and no fewer
visits, or it is gone and the operation was the Delete of `c` by its owner. -/
def Lifecycle (op : Op) (w : World) (c : String) : Prop :=
  ∀ link : Link, w.links.lookup c = some link →
    (∃ link1, (op.after w).links.lookup c = some link1 ∧
      link1.OriginalURL = link.OriginalURL ∧ link1.CreatedAt = link.CreatedAt ∧
      link1.IP = link.IP ∧ link.Visits ≤ link1.Visits) ∨
    ((op.after w).links.lookup c = none ∧ op = .delete c link.IP)

/-- The random source that always returns 0. -/
def zeroSource : Nat → Nat := fun _ => 0

/-- Two Creates, by `1.1.1.1` and then by `2.2.2.2`. -/
def twoCreates : List Op :=
  [.create "POST" "a.com" "1.1.1.1" "http://localhost:8974" 1000,
   .create "POST" "b.com" "2.2.2.2" "http://localhost:8974" 2000]

/-! ## Running code: basic facts -/

@[simp] theorem Exec.pure_apply {α : Type} (a : α) (w : World) :
    (pure a : Exec α) w = .done a w := rfl

@[simp] theorem Exec.bind_apply {α β : Type} (m : Exec α) (f : α → Exec β) (w : World) :
    (m >>= f) w = Exec.bind m f w := rfl

@[simp] theorem getWorld_apply (w : World) : getWorld w = .done w w := rfl

@[simp] theorem setWorld_apply (w1 w : World) : setWorld w1 w = .done () w1 := rfl

theorem mutexLock_free (w : World) (h : w.mutex = .free) :
    mutexLock w = .done () { w with mutex := .writer } := by
  simp [mutexLock, h]

theorem mutexUnlock_writer (w : World) (h : w.mutex = .writer) :
    mutexUnlock w = .done () { w with mutex := .free } := by
  simp [mutexUnlock, h]

theorem mutexRLock_free (w : World) (h : w.mutex = .free) :
    mutexRLock w = .done () { w with mutex := .readers 1 } := by
  simp [mutexRLock, h]

theorem mutexRLock_writer (w : World) (h : w.mutex = .writer) :
    mutexRLock w = .blocked w := by
  simp [mutexRLock, h]

theorem mutexRUnlock_one (w : World) (h : w.mutex = .readers 1) :
    mutexRUnlock w = .done () { w with mutex := .free } := by
  simp [mutexRUnlock, h]

/-- Run from a free lock, `saveDatabase` returns: the file holds the records
of `links`, and nothing else has changed. -/
theorem saveDatabase_free (w : World) (h : w.mutex = .free) :
    saveDatabase w = .done () { w with dbFile := .snapshot (w.links.entries.map fun e => e.2) } := by
  cases w
  simp_all [saveDatabase, Exec.bind, mutexRLock, mutexRUnlock]

/-- Run from a free lock on a file that holds a snapshot, `loadDatabase`
returns with both maps rebuilt from the records of the snapshot. -/
theorem loadDatabase_snapshot (w : World) (recs : List Link) (hfree : w.mutex = .free)
    (hfile : w.dbFile = .snapshot recs) :
    loadDatabase w = .done ()
      { w with links := (recs.foldl loadStep (∅, ∅)).1, ipLinks := (recs.foldl loadStep (∅, ∅)).2 } := by
  cases w
  simp only at hfree hfile
  subst hfree hfile
  simp [loadDatabase, Exec.bind, mutexLock, mutexUnlock]

/-- Run while a writer holds the lock, `saveDatabase` never gets its read lock. -/
theorem saveDatabase_writer (w : World) (h : w.mutex = .writer) :
    saveDatabase w = .blocked w := by
  simp [saveDatabase, Exec.bind, mutexRLock, h]


/-! ## Strings -/

theorem trimPrefix_slash (c : String) : TrimPrefix ("/" ++ c) "/" = c := by
  simp [TrimPrefix, HasPrefix, String.data_append]

theorem slash_append_ne (c : String) (h : c ≠ "") : ("/" ++ c) ≠ "/" := by
  intro hc
  apply h
  have hd := congrArg String.data hc
  simp [String.data_append] at hd
  exact String.ext hd

theorem codeBytes_length (n : Nat) (rand : Nat → Nat) : (codeBytes n rand).length = n := by
  simp [codeBytes]

theorem generated_ne_empty (rand : Nat → Nat) : String.mk (codeBytes 6 rand) ≠ "" := by
  intro h
  have hd := congrArg String.length h
  simp [String.length, codeBytes_length] at hd

/-- Run from a free lock with the code in the table, `resolve` returns the
original URL; the record has one more visit and one goroutine was started. -/
theorem resolve_found (w : World) (c : String) (link : Link) (h : w.mutex = .free)
    (hc : w.links.lookup c = some link) :
    resolve c w = .done (some link.OriginalURL)
      { w with
        links := w.links.replace c { link with Visits := wrapInt (link.Visits + 1) },
        spawned := w.spawned + 1 } := by
  cases w
  simp_all [resolve, Exec.bind, mutexRLock, mutexRUnlock, mutexLock, mutexUnlock]

/-- Run from a free lock with the code not in the table, `resolve` reports
not-found and the process state is what it was. -/
theorem resolve_missing (w : World) (c : String) (h : w.mutex = .free)
    (hc : w.links.lookup c = none) :
    resolve c w = .done none w := by
  cases w
  simp_all [resolve, Exec.bind, mutexRLock, mutexRUnlock]


theorem letters_count : letters.data.length = 62 := by decide

theorem letters_alnum :
    ∀ ch ∈ letters.data, (ch.isLower || ch.isUpper || ch.isDigit) = true := by decide

theorem codeBytes_mem (n : Nat) (rand : Nat → Nat) :
    ∀ ch ∈ codeBytes n rand, ch ∈ letters.data := by
  intro ch hch
  simp only [codeBytes, List.mem_map, List.mem_range] at hch
  obtain ⟨i, _, rfl⟩ := hch
  have hlt : Intn (rand i) letters.data.length < letters.data.length := by
    unfold Intn
    exact Nat.mod_lt _ (by rw [letters_count]; decide)
  rw [List.getD_eq_getElem _ _ hlt]
  exact List.getElem_mem _

/-! ## Maps -/

theorem kreplace_head {V : Type} (k : String) (v b : V) (l : List (Σ _ : String, V)) :
    List.kreplace k v (⟨k, b⟩ :: l) = ⟨k, v⟩ :: l := by
  have h : (fun s : (Σ _ : String, V) => if k = s.1 then some (⟨k, v⟩ : (Σ _ : String, V)) else none) ⟨k, b⟩
      = some (⟨k, v⟩ : (Σ _ : String, V)) := by simp
  exact List.lookmap_cons_some _ l h

theorem kreplace_tail {V : Type} (k a : String) (v b : V) (l : List (Σ _ : String, V))
    (h : k ≠ a) : List.kreplace k v (⟨a, b⟩ :: l) = ⟨a, b⟩ :: List.kreplace k v l := by
  have hn : (fun s : (Σ _ : String, V) => if k = s.1 then some (⟨k, v⟩ : (Σ _ : String, V)) else none) ⟨a, b⟩
      = none := by simp [h]
  exact List.lookmap_cons_none _ l hn

theorem lookup_replace_self {V : Type} (m : GoMap V) (k : String) (v : V) (h : k ∈ m) :
    (m.replace k v).lookup k = some v := by
  obtain ⟨l, nd⟩ := m
  have hk : k ∈ l.keys := h
  clear h
  simp only [AList.lookup, AList.replace]
  clear nd
  induction l with
  | nil => simp at hk
  | cons e l ih =>
    obtain ⟨a, b⟩ := e
    by_cases hak : k = a
    · subst hak
      rw [kreplace_head, List.dlookup_cons_eq]
    · have hk2 : k ∈ l.keys := by
        simpa [List.keys, hak] using hk
      rw [kreplace_tail _ _ _ _ _ hak, List.dlookup_cons_ne _ _ hak]
      exact ih hk2

theorem lookup_replace_ne {V : Type} (m : GoMap V) (k a : String) (v : V) (h : a ≠ k) :
    (m.replace k v).lookup a = m.lookup a := by
  obtain ⟨l, nd⟩ := m
  simp only [AList.lookup, AList.replace]
  clear nd
  induction l with
  | nil => simp [List.kreplace]
  | cons e l ih =>
    obtain ⟨x, b⟩ := e
    by_cases hkx : k = x
    · subst hkx
      rw [kreplace_head, List.dlookup_cons_ne _ _ h, List.dlookup_cons_ne _ _ h]
    · rw [kreplace_tail _ _ _ _ _ hkx]
      by_cases hax : a = x
      · subst hax
        rw [List.dlookup_cons_eq, List.dlookup_cons_eq]
      · rw [List.dlookup_cons_ne _ _ hax, List.dlookup_cons_ne _ _ hax]
        exact ih

theorem mem_of_lookup {V : Type} (m : GoMap V) (k : String) (v : V)
    (h : m.lookup k = some v) : k ∈ m := by
  rw [← AList.lookup_isSome, h]
  rfl


/-! ## The `/shorten` handler -/

/-- Run from a free lock on a POST with a non-empty URL, the `/shorten`
handler returns: the record is in the table under the generated code, the code
is at the end of the owner's list, the lock is free again and the snapshot has
been written. -/
theorem shortenHandler_run (w : World) (u ip domain : String) (now : Int)
    (hfree : w.mutex = .free) (hu : u ≠ "") :
    shortenHandler "POST" u ip domain now w =
      .done (.redirect ("/?result=" ++ domain ++ "/" ++ String.mk (codeBytes 6 w.rand)))
        { w with
          links := w.links.insert (String.mk (codeBytes 6 w.rand))
            { OriginalURL := normalizeURL u, ShortCode := String.mk (codeBytes 6 w.rand),
              CreatedAt := now, IP := ip, Visits := 0 },
          ipLinks := w.ipLinks.insert ip (codesOf w.ipLinks ip ++ [String.mk (codeBytes 6 w.rand)]),
          rand := fun i => w.rand (i + 6),
          dbFile := .snapshot ((w.links.insert (String.mk (codeBytes 6 w.rand))
            { OriginalURL := normalizeURL u, ShortCode := String.mk (codeBytes 6 w.rand),
              CreatedAt := now, IP := ip, Visits := 0 }).entries.map fun e => e.2) } := by
  cases w
  simp_all [shortenHandler, Exec.bind, generateCode, mutexLock, mutexUnlock, saveDatabase,
    mutexRLock, mutexRUnlock, codesOf]

theorem normalizeURL_eq (u : String) :
    normalizeURL u = if HasPrefix u "http://" || HasPrefix u "https://" then u else "https://" ++ u := by
  unfold normalizeURL
  cases HasPrefix u "http://" <;> cases HasPrefix u "https://" <;> simp

theorem rootHandler_found (w : World) (c : String) (link : Link) (h : w.mutex = .free)
    (hne : c ≠ "") (hc : w.links.lookup c = some link) :
    rootHandler ("/" ++ c) w = .done (.redirect link.OriginalURL)
      { w with
        links := w.links.replace c { link with Visits := wrapInt (link.Visits + 1) },
        spawned := w.spawned + 1 } := by
  have hp : (("/" ++ c) != "/") = true := by
    simpa using slash_append_ne c hne
  simp [rootHandler, hp, trimPrefix_slash, Exec.bind, resolve_found w c link h hc]

/-- C1. For every state with the lock free, every non-empty submitted URL,
every owner address and every code the generator produces: the `/shorten`
handler returns, the record stored under the code has the normalized URL, the
requester as owner and visit count 0, and the `/` handler then redirects the
path of that code to the normalized URL, which is the URL itself when it
starts with `http://` or `https://` and `https://` followed by it otherwise. -/
theorem C1_create_then_resolve (w : World) (u ip domain : String) (now : Int)
    (c : String) (wg : World)
    (hfree : w.mutex = .free) (hu : u ≠ "") (hgen : generateCode 6 w = .done c wg) :
    ∃ w1 w2 : World,
      shortenHandler "POST" u ip domain now w
        = .done (.redirect ("/?result=" ++ domain ++ "/" ++ c)) w1 ∧
      w1.links.lookup c =
        some { OriginalURL :=
                 if HasPrefix u "http://" || HasPrefix u "https://" then u else "https://" ++ u,
               ShortCode := c, CreatedAt := now, IP := ip, Visits := 0 } ∧
      rootHandler ("/" ++ c) w1 =
        .done (.redirect
          (if HasPrefix u "http://" || HasPrefix u "https://" then u else "https://" ++ u)) w2 := by
  have hcode : c = String.mk (codeBytes 6 w.rand) := by
    simp only [generateCode, Outcome.done.injEq] at hgen
    exact hgen.1.symm
  subst hcode
  have h1 := shortenHandler_run w u ip domain now hfree hu
  have hroot := rootHandler_found _ (String.mk (codeBytes 6 w.rand))
    { OriginalURL := normalizeURL u, ShortCode := String.mk (codeBytes 6 w.rand),
      CreatedAt := now, IP := ip, Visits := 0 }
    (show ({ w with
          links := w.links.insert (String.mk (codeBytes 6 w.rand))
            { OriginalURL := normalizeURL u, ShortCode := String.mk (codeBytes 6 w.rand),
              CreatedAt := now, IP := ip, Visits := 0 },
          ipLinks := w.ipLinks.insert ip (codesOf w.ipLinks ip ++ [String.mk (codeBytes 6 w.rand)]),
          rand := fun i => w.rand (i + 6),
          dbFile := .snapshot ((w.links.insert (String.mk (codeBytes 6 w.rand))
            { OriginalURL := normalizeURL u, ShortCode := String.mk (codeBytes 6 w.rand),
              CreatedAt := now, IP := ip, Visits := 0 }).entries.map fun e => e.2) } : World).mutex
        = .free from hfree)
    (generated_ne_empty w.rand) (AList.lookup_insert _)
  rw [normalizeURL_eq] at h1 hroot
  exact ⟨_, _, h1, AList.lookup_insert _, hroot⟩

/-- C1 on a fresh process: `example.com` submitted by `1.1.1.1`, the source
giving the code `abcdef`. -/
theorem C1_create_then_resolve_witness :
    freshWorld.mutex = .free ∧ "example.com" ≠ "" ∧
    generateCode 6 freshWorld
      = .done "abcdef" { freshWorld with rand := fun i => freshWorld.rand (i + 6) } ∧
    ∃ w1 w2 : World,
      shortenHandler "POST" "example.com" "1.1.1.1" "http://localhost:8974" 5000 freshWorld
        = .done (.redirect ("/?result=" ++ "http://localhost:8974" ++ "/" ++ "abcdef")) w1 ∧
      w1.links.lookup "abcdef" =
        some { OriginalURL :=
                 if HasPrefix "example.com" "http://" || HasPrefix "example.com" "https://"
                 then "example.com" else "https://" ++ "example.com",
               ShortCode := "abcdef", CreatedAt := 5000, IP := "1.1.1.1", Visits := 0 } ∧
      rootHandler ("/" ++ "abcdef") w1 =
        .done (.redirect
          (if HasPrefix "example.com" "http://" || HasPrefix "example.com" "https://"
           then "example.com" else "https://" ++ "example.com")) w2 :=
  ⟨rfl, by decide, rfl,
    C1_create_then_resolve freshWorld "example.com" "1.1.1.1" "http://localhost:8974" 5000
      "abcdef" { freshWorld with rand := fun i => freshWorld.rand (i + 6) }
      rfl (by decide) rfl⟩


/-! ## generateCode -/

/-- C2. For every length and every random source, `generateCode` returns a
string of exactly that many characters, each one of the 62 symbols of
`letters`, which are the letters a-z, A-Z and the digits 0-9; the `/shorten`
handler stores its record under the value of `generateCode(6)`, so the code of
every created record has 6 characters, all alphanumeric. -/
theorem C2_generateCode_alphabet (n : Nat) (w : World) :
    (∃ code w1, generateCode n w = .done code w1 ∧ code.length = n ∧
      ∀ ch ∈ code.data, ch ∈ letters.data) ∧
    letters.length = 62 ∧ letters.data.Nodup ∧
    (∀ ch ∈ letters.data, ch.isLower = true ∨ ch.isUpper = true ∨ ch.isDigit = true) ∧
    (∀ (u ip domain : String) (now : Int), w.mutex = .free → u ≠ "" →
      ∃ code wg w1 link, generateCode 6 w = .done code wg ∧
        shortenHandler "POST" u ip domain now w
          = .done (.redirect ("/?result=" ++ domain ++ "/" ++ code)) w1 ∧
        w1.links.lookup code = some link ∧ link.ShortCode = code ∧
        code.length = 6 ∧
        ∀ ch ∈ code.data, ch.isLower = true ∨ ch.isUpper = true ∨ ch.isDigit = true) := by
  have halnum : ∀ ch ∈ letters.data,
      ch.isLower = true ∨ ch.isUpper = true ∨ ch.isDigit = true := by
    intro ch hch
    have := letters_alnum ch hch
    simpa [Bool.or_eq_true, or_assoc] using this
  refine ⟨⟨_, _, rfl, ?_, ?_⟩, ?_, ?_, halnum, ?_⟩
  · simp [String.length, codeBytes_length]
  · exact codeBytes_mem n w.rand
  · exact letters_count
  · decide
  · intro u ip domain now hfree hu
    refine ⟨_, _, _, _, rfl, shortenHandler_run w u ip domain now hfree hu,
      AList.lookup_insert _, rfl, ?_, ?_⟩
    · simp [String.length, codeBytes_length]
    · intro ch hch
      exact halnum ch (codeBytes_mem 6 w.rand ch hch)

/-- C2 on a fresh process: the code of the record created for `example.com`. -/
theorem C2_generateCode_alphabet_witness :
    freshWorld.mutex = .free ∧ "example.com" ≠ "" ∧
    ∃ code wg w1 link, generateCode 6 freshWorld = .done code wg ∧
      shortenHandler "POST" "example.com" "1.1.1.1" "http://localhost:8974" 5000 freshWorld
        = .done (.redirect ("/?result=" ++ "http://localhost:8974" ++ "/" ++ code)) w1 ∧
      w1.links.lookup code = some link ∧ link.ShortCode = code ∧
      code.length = 6 ∧
      ∀ ch ∈ code.data, ch.isLower = true ∨ ch.isUpper = true ∨ ch.isDigit = true :=
  ⟨rfl, by decide,
    (C2_generateCode_alphabet 6 freshWorld).2.2.2.2
      "example.com" "1.1.1.1" "http://localhost:8974" 5000 rfl (by decide)⟩

/-! ## The stored URL -/

theorem hasPrefix_append (p u : String) : HasPrefix (p ++ u) p = true := by
  simp [HasPrefix, String.data_append]

theorem normalizeURL_idem (u : String) : normalizeURL (normalizeURL u) = normalizeURL u := by
  by_cases h : (HasPrefix u "http://" || HasPrefix u "https://") = true
  · have h1 : normalizeURL u = u := by rw [normalizeURL_eq, if_pos h]
    rw [h1, h1]
  · have h1 : normalizeURL u = "https://" ++ u := by rw [normalizeURL_eq, if_neg h]
    rw [h1, normalizeURL_eq, hasPrefix_append]
    simp

/-- A text that carries no scheme does not start with `http://` or `https://`. -/
theorem no_scheme_no_http (u : String) (h : carriesScheme u = false) :
    HasPrefix u "http://" = false ∧ HasPrefix u "https://" = false := by
  constructor
  · by_contra hp
    simp only [Bool.not_eq_false, HasPrefix] at hp
    obtain ⟨t, ht⟩ := List.isPrefixOf_iff_prefix.1 hp
    have hu : u = String.mk ("http://".data ++ t) := String.ext ht.symm
    subst hu
    revert h
    cases t <;> simp [carriesScheme, List.takeWhile, schemeChar]
  · by_contra hp
    simp only [Bool.not_eq_false, HasPrefix] at hp
    obtain ⟨t, ht⟩ := List.isPrefixOf_iff_prefix.1 hp
    have hu : u = String.mk ("https://".data ++ t) := String.ext ht.symm
    subst hu
    revert h
    cases t <;> simp [carriesScheme, List.takeWhile, schemeChar]


/-- C3, the claim as stated fails. `ftp://example.com` and `HTTP://example.com`
carry a scheme, and the `/shorten` handler stores them with `https://` put in
front. -/
theorem C3_scheme_kept_counterexample :
    carriesScheme "ftp://example.com" = true ∧ carriesScheme "HTTP://example.com" = true ∧
    (∃ w1, shortenHandler "POST" "ftp://example.com" "1.1.1.1" "http://localhost:8974" 5000
          freshWorld = .done (.redirect "/?result=http://localhost:8974/abcdef") w1 ∧
      (w1.links.lookup "abcdef").map Link.OriginalURL = some "https://ftp://example.com" ∧
      (w1.links.lookup "abcdef").map Link.OriginalURL ≠ some "ftp://example.com") ∧
    (∃ w1, shortenHandler "POST" "HTTP://example.com" "1.1.1.1" "http://localhost:8974" 5000
          freshWorld = .done (.redirect "/?result=http://localhost:8974/abcdef") w1 ∧
      (w1.links.lookup "abcdef").map Link.OriginalURL = some "https://HTTP://example.com" ∧
      (w1.links.lookup "abcdef").map Link.OriginalURL ≠ some "HTTP://example.com") := by
  have h1 := shortenHandler_run freshWorld "ftp://example.com" "1.1.1.1"
    "http://localhost:8974" 5000 rfl (by decide)
  have h2 := shortenHandler_run freshWorld "HTTP://example.com" "1.1.1.1"
    "http://localhost:8974" 5000 rfl (by decide)
  exact ⟨by decide, by decide, ⟨_, h1, by decide, by decide⟩, ⟨_, h2, by decide, by decide⟩⟩

/-- C3, amended. For every state with the lock free and every non-empty
submitted URL, the `/shorten` handler stores the URL unchanged when it starts
with `http://` or `https://`, and stores `https://` followed by the URL when
the URL carries no scheme; the stored URL is a fixed point of the
normalization. -/
theorem C3_stored_url (w : World) (u ip domain : String) (now : Int)
    (hfree : w.mutex = .free) (hu : u ≠ "") :
    ∃ code w1 link,
      shortenHandler "POST" u ip domain now w
        = .done (.redirect ("/?result=" ++ domain ++ "/" ++ code)) w1 ∧
      w1.links.lookup code = some link ∧
      (HasPrefix u "http://" = true ∨ HasPrefix u "https://" = true → link.OriginalURL = u) ∧
      (carriesScheme u = false → link.OriginalURL = "https://" ++ u) ∧
      normalizeURL link.OriginalURL = link.OriginalURL := by
  have hyes : HasPrefix u "http://" = true ∨ HasPrefix u "https://" = true →
      normalizeURL u = u := by
    intro h
    rw [normalizeURL_eq, if_pos (by simpa [Bool.or_eq_true] using h)]
  have hno : HasPrefix u "http://" = false ∧ HasPrefix u "https://" = false →
      normalizeURL u = "https://" ++ u := by
    intro h
    rw [normalizeURL_eq, if_neg (by simp [h.1, h.2])]
  exact ⟨_, _, _, shortenHandler_run w u ip domain now hfree hu, AList.lookup_insert _,
    hyes, fun h => hno (no_scheme_no_http u h), normalizeURL_idem u⟩

/-- C3 as amended, on a fresh process and the URL `example.com`. -/
theorem C3_stored_url_witness :
    freshWorld.mutex = .free ∧ "example.com" ≠ "" ∧
    ∃ code w1 link,
      shortenHandler "POST" "example.com" "1.1.1.1" "http://localhost:8974" 5000 freshWorld
        = .done (.redirect ("/?result=" ++ "http://localhost:8974" ++ "/" ++ code)) w1 ∧
      w1.links.lookup code = some link ∧
      (HasPrefix "example.com" "http://" = true ∨ HasPrefix "example.com" "https://" = true →
        link.OriginalURL = "example.com") ∧
      (carriesScheme "example.com" = false → link.OriginalURL = "https://" ++ "example.com") ∧
      normalizeURL link.OriginalURL = link.OriginalURL :=
  ⟨rfl, by decide,
    C3_stored_url freshWorld "example.com" "1.1.1.1" "http://localhost:8974" 5000 rfl
      (by decide)⟩

/-! ## The redirect branch of the `/` handler -/

theorem wrapInt_succ (v : Int) (hlo : minInt ≤ v) (hhi : v < maxInt) :
    wrapInt (v + 1) = v + 1 := by
  simp only [wrapInt, minInt, maxInt] at *
  omega

theorem le_wrapInt_succ (v : Int) (hhi : v < maxInt) : v ≤ wrapInt (v + 1) := by
  simp only [wrapInt, minInt, maxInt] at *
  omega

/-- C4, the claim as stated fails. A process started on a snapshot whose
record of `aZ3kq1` has the largest visit count a Go `int` can hold: one
Resolve of `aZ3kq1` leaves the record with the least value of `int`, not with
one more visit. -/
theorem C4_visits_wrap_counterexample :
    (∃ w0, loadDatabase { freshWorld with dbFile := .snapshot [fullLink] } = .done () w0 ∧
      w0.links.lookup "aZ3kq1" = some fullLink) ∧
    fullWorld.mutex = .free ∧
    fullWorld.links.lookup "aZ3kq1" = some fullLink ∧
    fullLink.Visits = 9223372036854775807 ∧
    ∃ w1, resolve "aZ3kq1" fullWorld = .done (some "https://example.com") w1 ∧
      (w1.links.lookup "aZ3kq1").map Link.Visits = some (-9223372036854775808) ∧
      (w1.links.lookup "aZ3kq1").map Link.Visits ≠ some (fullLink.Visits + 1) := by
  have hload := loadDatabase_snapshot { freshWorld with dbFile := .snapshot [fullLink] }
    [fullLink] rfl rfl
  have hres := resolve_found fullWorld "aZ3kq1" fullLink rfl (by decide)
  exact ⟨⟨_, hload, by decide⟩, rfl, by decide, rfl, _, hres, by decide, by decide⟩

/-- C4, amended. For every state with the lock free and every code in the
table whose record has a visit count (a value of `int`, so not below `minInt`)
below the largest value of `int`, the
redirect branch returns the original URL of the record; afterwards the record
of that code has exactly one more visit and is otherwise the same, the table
has the same keys, every other record is the same, and the owner index is the
same. -/
theorem C4_resolve_increments (w : World) (c : String) (link : Link)
    (hfree : w.mutex = .free) (hc : w.links.lookup c = some link)
    (hlo : minInt ≤ link.Visits) (hhi : link.Visits < maxInt) :
    ∃ w1, resolve c w = .done (some link.OriginalURL) w1 ∧
      w1.links.lookup c = some { link with Visits := link.Visits + 1 } ∧
      (∃ link1, w1.links.lookup c = some link1 ∧ link1.Visits = link.Visits + 1 ∧
        link1.OriginalURL = link.OriginalURL ∧ link1.ShortCode = link.ShortCode ∧
        link1.CreatedAt = link.CreatedAt ∧ link1.IP = link.IP) ∧
      w1.links.keys = w.links.keys ∧
      (∀ k, k ≠ c → w1.links.lookup k = w.links.lookup k) ∧
      w1.ipLinks = w.ipLinks := by
  have hl := lookup_replace_self w.links c { link with Visits := wrapInt (link.Visits + 1) }
    (mem_of_lookup _ _ _ hc)
  have hl1 : (w.links.replace c { link with Visits := wrapInt (link.Visits + 1) }).lookup c
      = some { link with Visits := link.Visits + 1 } := by
    rw [hl, wrapInt_succ link.Visits hlo hhi]
  exact ⟨_, resolve_found w c link hfree hc, hl1, ⟨_, hl1, rfl, rfl, rfl, rfl, rfl⟩,
    AList.keys_replace _ _ _, fun k hk => lookup_replace_ne _ _ _ _ hk, rfl⟩

/-- C4 as amended, on the sample state and the code `Qw12er`, visited twice
before and three times after. -/
theorem C4_resolve_increments_witness :
    sampleWorld.mutex = .free ∧ sampleWorld.links.lookup "Qw12er" = some otherLink ∧
    minInt ≤ otherLink.Visits ∧ otherLink.Visits < maxInt ∧
    ∃ w1, resolve "Qw12er" sampleWorld = .done (some otherLink.OriginalURL) w1 ∧
      w1.links.lookup "Qw12er" = some { otherLink with Visits := otherLink.Visits + 1 } ∧
      (∃ link1, w1.links.lookup "Qw12er" = some link1 ∧ link1.Visits = otherLink.Visits + 1 ∧
        link1.OriginalURL = otherLink.OriginalURL ∧ link1.ShortCode = otherLink.ShortCode ∧
        link1.CreatedAt = otherLink.CreatedAt ∧ link1.IP = otherLink.IP) ∧
      w1.links.keys = sampleWorld.links.keys ∧
      (∀ k, k ≠ "Qw12er" → w1.links.lookup k = sampleWorld.links.lookup k) ∧
      w1.ipLinks = sampleWorld.ipLinks :=
  ⟨rfl, by decide, by decide, by decide,
    C4_resolve_increments sampleWorld "Qw12er" otherLink rfl (by decide) (by decide)
      (by decide)⟩

/-- C5. For every state with the lock free and every code that is not a key
of the table, the redirect branch reports not-found and the whole process
state, the table and the owner index included, is what it was; the `/` handler
then answers with the form page and no redirect. -/
theorem C5_resolve_unknown (w : World) (c : String)
    (hfree : w.mutex = .free) (hc : c ∉ w.links) :
    resolve c w = .done none w ∧
    (∀ path, TrimPrefix path "/" = c → rootHandler path w = .done .page w) := by
  have hnone : w.links.lookup c = none := AList.lookup_eq_none.2 hc
  have hres := resolve_missing w c hfree hnone
  refine ⟨hres, ?_⟩
  intro path hpath
  unfold rootHandler
  split
  · simp [Exec.bind, hpath, hres]
  · rfl

/-- C5 on the sample state and the unknown code `zzzzzz`. -/
theorem C5_resolve_unknown_witness :
    sampleWorld.mutex = .free ∧ "zzzzzz" ∉ sampleWorld.links ∧
    resolve "zzzzzz" sampleWorld = .done none sampleWorld ∧
    (∀ path, TrimPrefix path "/" = "zzzzzz" → rootHandler path sampleWorld
      = .done .page sampleWorld) :=
  ⟨rfl, by decide, C5_resolve_unknown sampleWorld "zzzzzz" rfl (by decide)⟩


/-! ## The `/delete/` handler -/

/-- The owner index after the `/delete/` handler has dropped `code` from the
list of `ip`. -/
theorem deleteHandler_owner (w : World) (c ip : String) (link : Link)
    (hfree : w.mutex = .free) (hne : c ≠ "")
    (hc : w.links.lookup c = some link) (hip : link.IP = ip) :
    deleteHandler c ip w = .blocked
      { w with
        links := w.links.erase c,
        ipLinks := match w.ipLinks.lookup ip with
          | some codes => w.ipLinks.replace ip (codes.filter fun x => x != c)
          | none => w.ipLinks,
        mutex := .writer } := by
  cases w
  simp only at hfree hc
  subst hfree
  cases hcodes : AList.lookup ip ‹GoMap (List String)› <;>
    simp [deleteHandler, hne, Exec.bind, mutexLock, hc, hip, hcodes, saveDatabase, mutexRLock]

/-- A request that finds no record of the code, or a record of another owner,
is answered with the redirect to `/my` and changes nothing. -/
theorem deleteHandler_noop (w : World) (c ip : String) (hfree : w.mutex = .free)
    (h : ∀ link, w.links.lookup c = some link → link.IP ≠ ip) :
    deleteHandler c ip w = .done (.redirect "/my") w := by
  cases w
  simp only at hfree h
  subst hfree
  by_cases hne : c = ""
  · simp [deleteHandler, hne]
  · cases hc : AList.lookup c ‹GoMap Link› with
    | none => simp [deleteHandler, hne, Exec.bind, mutexLock, mutexUnlock, hc]
    | some link =>
      have := h link hc
      simp [deleteHandler, hne, Exec.bind, mutexLock, mutexUnlock, hc, this]

/-- The tables at the point where a delete by the owner stops: no record of
the code, the other records as they were, and the list of the requester
without the code, its other codes in their order. -/
theorem deleteHandler_owner_tables (w : World) (c ip : String) (link : Link)
    (hfree : w.mutex = .free) (hne : c ≠ "")
    (hc : w.links.lookup c = some link) (hip : link.IP = ip) :
    ∃ w1, deleteHandler c ip w = .blocked w1 ∧ w1.mutex = .writer ∧
      w1.links.lookup c = none ∧
      (∀ k, k ≠ c → w1.links.lookup k = w.links.lookup k) ∧
      codesOf w1.ipLinks ip = (codesOf w.ipLinks ip).filter (fun x => x != c) ∧
      (∀ a, a ≠ ip → codesOf w1.ipLinks a = codesOf w.ipLinks a) := by
  refine ⟨_, deleteHandler_owner w c ip link hfree hne hc hip, rfl,
    AList.lookup_erase c w.links, fun k hk => AList.lookup_erase_ne hk, ?_, ?_⟩
  · cases hcodes : w.ipLinks.lookup ip with
    | none => simp [codesOf, hcodes]
    | some codes =>
      simp [codesOf, hcodes, lookup_replace_self _ _ _ (mem_of_lookup _ _ _ hcodes)]
  · intro a ha
    cases hcodes : w.ipLinks.lookup ip with
    | none => simp [codesOf, hcodes]
    | some codes => simp [codesOf, hcodes, lookup_replace_ne _ _ _ _ ha]

/-- C6, the code at a failing input. In the sample state the code `aZ3kq1`
belongs to `1.1.1.1`. The `/delete/` handler, called by that owner, removes
the record and the code from the owner's list and then calls `saveDatabase`
while it still holds the write lock: the handler never returns, the lock stays
held, and a later request for the code waits for the lock instead of being
told not-found. The `/shorten` handler, which releases the lock before it
saves, returns from the same state. -/
theorem C6_delete_by_owner_blocks :
    sampleWorld.mutex = .free ∧
    sampleWorld.links.lookup "aZ3kq1" = some sampleLink ∧ sampleLink.IP = "1.1.1.1" ∧
    (∃ w1, deleteHandler "aZ3kq1" "1.1.1.1" sampleWorld = .blocked w1 ∧
      w1.mutex = .writer ∧
      w1.links.lookup "aZ3kq1" = none ∧
      w1.links.lookup "Qw12er" = some otherLink ∧
      codesOf w1.ipLinks "1.1.1.1" = ["Qw12er"] ∧
      resolve "aZ3kq1" w1 = .blocked w1 ∧
      rootHandler "/aZ3kq1" w1 = .blocked w1) ∧
    (∃ r w2, shortenHandler "POST" "example.com" "1.1.1.1" "http://localhost:8974" 5000
      sampleWorld = .done r w2 ∧ w2.mutex = .free) := by
  have hdel := deleteHandler_owner sampleWorld "aZ3kq1" "1.1.1.1" sampleLink rfl (by decide)
    (by decide) rfl
  have hsh := shortenHandler_run sampleWorld "example.com" "1.1.1.1" "http://localhost:8974"
    5000 rfl (by decide)
  exact ⟨rfl, by decide, rfl, ⟨_, hdel, rfl, by decide, by decide, by decide, rfl, rfl⟩,
    ⟨_, _, hsh, rfl⟩⟩

/-- The comparison of `getTopLinks` is an ordering of the kind `sort.Slice`
asks for. -/
theorem lessTop_ordering : TransitiveOrdering lessTop := by
  refine ⟨?_, ?_, ?_⟩
  · intro a
    simp [lessTop, After]
  · intro a b c
    simp only [lessTop, After, beq_iff_eq]
    split_ifs <;> simp only [decide_eq_true_eq] <;> intros <;> omega
  · intro a b c
    simp only [lessTop, After, beq_iff_eq]
    split_ifs <;> simp only [decide_eq_false_iff_not] <;> intros <;> omega

/-- What "not less than the one before" means for the comparison of
`getTopLinks`. -/
theorem lessTop_false_iff (a b : LinkStats) :
    lessTop b a = false ↔
      (a.Visits > b.Visits ∨ (a.Visits = b.Visits ∧ b.CreatedAt ≤ a.CreatedAt)) := by
  simp only [lessTop, After, beq_iff_eq]
  split_ifs <;> simp only [decide_eq_false_iff_not] <;> constructor <;> intros <;> omega

/-- Insertion sort meets the contract of `sort.Slice`. -/
theorem insertionSortBy_contract {α : Type} : SortContract (@insertionSortBy α) := by
  intro less l
  refine ⟨List.perm_insertionSort _ l, ?_⟩
  intro hord
  obtain ⟨hirr, htr, hntr⟩ := hord
  haveI : IsTotal α (fun a b => less b a = false) := ⟨by
    intro a b
    by_contra hcon
    simp only [not_or, Bool.not_eq_false] at hcon
    have := htr a b a hcon.2 hcon.1
    rw [hirr a] at this
    cases this⟩
  haveI : IsTrans α (fun a b => less b a = false) := ⟨by
    intro a b c hab hbc
    exact hntr c b a hbc hab⟩
  exact (List.sorted_insertionSort (fun a b => less b a = false) l).chain'

theorem getTopLinks_cases (sortSlice : (LinkStats → LinkStats → Bool) → List LinkStats → List LinkStats)
    (n : Int) (w : World) :
    (0 < n ∧ n < ((sortSlice lessTop (w.links.entries.map fun e => statsOf e.1 e.2)).length : Int) ∧
      getTopLinks sortSlice n w
        = (sortSlice lessTop (w.links.entries.map fun e => statsOf e.1 e.2)).take n.toNat) ∨
    (¬ (0 < n ∧ n < ((sortSlice lessTop (w.links.entries.map fun e => statsOf e.1 e.2)).length : Int)) ∧
      getTopLinks sortSlice n w
        = sortSlice lessTop (w.links.entries.map fun e => statsOf e.1 e.2)) := by
  unfold getTopLinks
  by_cases h : 0 < n ∧ n < ((sortSlice lessTop (w.links.entries.map fun e => statsOf e.1 e.2)).length : Int)
  · left
    exact ⟨h.1, h.2, by simp [h.1, h.2]⟩
  · right
    refine ⟨h, ?_⟩
    simp only [gt_iff_lt]
    rw [if_neg h]

/-- C8. For every table, every `n` and every sorting routine that meets the
contract of `sort.Slice`, any two consecutive entries `a`, `b` of
`getTopLinks(n)` satisfy: `a` has more visits than `b`, or they have the same
number of visits and `b` was not created after `a`. -/
theorem C8_getTopLinks_ranked
    (sortSlice : (LinkStats → LinkStats → Bool) → List LinkStats → List LinkStats)
    (hsort : SortContract sortSlice) (n : Int) (w : World) :
    (getTopLinks sortSlice n w).Chain' fun a b =>
      a.Visits > b.Visits ∨ (a.Visits = b.Visits ∧ b.CreatedAt ≤ a.CreatedAt) := by
  have hch := ((hsort lessTop (w.links.entries.map fun e => statsOf e.1 e.2)).2
    lessTop_ordering).imp fun a b h => (lessTop_false_iff a b).1 h
  rcases getTopLinks_cases sortSlice n w with ⟨_, _, h⟩ | ⟨_, h⟩
  · rw [h]
    exact hch.take _
  · rw [h]
    exact hch

/-- C8 with insertion sort for `sort.Slice`, on the sample state and `n = 0`:
both records are returned, the one visited twice first. -/
theorem C8_getTopLinks_ranked_witness :
    SortContract (@insertionSortBy LinkStats) ∧
    getTopLinks insertionSortBy 0 sampleWorld
      = [{ ShortCode := "Qw12er", OriginalURL := "http://go.dev", Visits := 2,
           CreatedAt := 2000, IP := "1.1.1.1" },
         { ShortCode := "aZ3kq1", OriginalURL := "https://example.com", Visits := 0,
           CreatedAt := 1000, IP := "1.1.1.1" }] ∧
    (getTopLinks insertionSortBy 0 sampleWorld).Chain' fun a b =>
      a.Visits > b.Visits ∨ (a.Visits = b.Visits ∧ b.CreatedAt ≤ a.CreatedAt) :=
  ⟨insertionSortBy_contract, by decide,
    C8_getTopLinks_ranked insertionSortBy insertionSortBy_contract 0 sampleWorld⟩

/-- The entries `getTopLinks` collects carry the keys of the table, in order. -/
theorem stats_codes (links : GoMap Link) :
    (links.entries.map fun e => statsOf e.1 e.2).map LinkStats.ShortCode = links.keys := by
  simp [AList.keys, List.keys, statsOf, List.map_map, Function.comp_def]

theorem mem_stats_iff (links : GoMap Link) (e : LinkStats) :
    e ∈ (links.entries.map fun x => statsOf x.1 x.2) ↔
      ∃ link, links.lookup e.ShortCode = some link ∧ e = statsOf e.ShortCode link := by
  constructor
  · intro h
    obtain ⟨x, hx, rfl⟩ := List.mem_map.1 h
    obtain ⟨k, link⟩ := x
    exact ⟨link, AList.mem_lookup_iff.2 hx, rfl⟩
  · rintro ⟨link, hl, he⟩
    rw [he]
    exact List.mem_map.2 ⟨⟨e.ShortCode, link⟩, AList.mem_lookup_iff.1 hl, rfl⟩

/-- The content of `getTopLinks(n)` in terms of the entries it builds: the
lengths, the rearrangement, and the visits of what is left out. -/
theorem getTopLinks_content
    (sortSlice : (LinkStats → LinkStats → Bool) → List LinkStats → List LinkStats)
    (hsort : SortContract sortSlice) (n : Int) (w : World) :
    (0 < n →
      ((getTopLinks sortSlice n w).length : Int) = min n (w.links.entries.length : Int) ∧
      ((getTopLinks sortSlice n w).length : Int) ≤ n) ∧
    (n ≤ 0 →
      (getTopLinks sortSlice n w).length = w.links.entries.length ∧
      (getTopLinks sortSlice n w).Perm (w.links.entries.map fun e => statsOf e.1 e.2) ∧
      ∀ k link, w.links.lookup k = some link →
        (getTopLinks sortSlice n w).count (statsOf k link) = 1) ∧
    (∀ e ∈ getTopLinks sortSlice n w,
      ∃ link, w.links.lookup e.ShortCode = some link ∧ e = statsOf e.ShortCode link) ∧
    ((getTopLinks sortSlice n w).map LinkStats.ShortCode).Nodup ∧
    (∀ k link, w.links.lookup k = some link → statsOf k link ∉ getTopLinks sortSlice n w →
      ∀ e ∈ getTopLinks sortSlice n w, link.Visits ≤ e.Visits) := by
  have hperm := (hsort lessTop (w.links.entries.map fun e => statsOf e.1 e.2)).1
  have hlen : (sortSlice lessTop (w.links.entries.map fun e => statsOf e.1 e.2)).length
      = w.links.entries.length := by
    rw [hperm.length_eq, List.length_map]
  have hnodup : ((sortSlice lessTop (w.links.entries.map fun e => statsOf e.1 e.2)).map
      LinkStats.ShortCode).Nodup := by
    rw [(hperm.map LinkStats.ShortCode).nodup_iff, stats_codes]
    exact w.links.keys_nodup
  have hpw : (sortSlice lessTop (w.links.entries.map fun e => statsOf e.1 e.2)).Pairwise
      fun a b => b.Visits ≤ a.Visits := by
    have hch := ((hsort lessTop (w.links.entries.map fun e => statsOf e.1 e.2)).2
      lessTop_ordering).imp fun a b h => (lessTop_false_iff a b).1 h
    have hch2 : (sortSlice lessTop (w.links.entries.map fun e => statsOf e.1 e.2)).Chain'
        fun a b => b.Visits ≤ a.Visits :=
      hch.imp fun a b h => by
        rcases h with h | h
        · exact le_of_lt h
        · exact le_of_eq h.1.symm
    haveI : IsTrans LinkStats (fun a b => b.Visits ≤ a.Visits) :=
      ⟨fun a b c hab hbc => le_trans hbc hab⟩
    exact List.chain'_iff_pairwise.1 hch2
  rcases getTopLinks_cases sortSlice n w with ⟨hpos, hlt, h⟩ | ⟨hno, h⟩
  · rw [h]
    rw [hlen] at hlt
    refine ⟨fun _ => ?_, fun hle => absurd hpos (not_lt.2 hle), ?_, ?_, ?_⟩
    · rw [List.length_take, hlen]
      omega
    · intro e he
      exact (mem_stats_iff w.links e).1 (hperm.subset (List.mem_of_mem_take he))
    · exact (hnodup.sublist ((List.take_sublist _ _).map _))
    · intro k link hl hout e he
      have hx : statsOf k link ∈ sortSlice lessTop (w.links.entries.map fun e => statsOf e.1 e.2) :=
        hperm.symm.subset ((mem_stats_iff w.links _).2 ⟨link, hl, rfl⟩)
      rw [← List.take_append_drop n.toNat
        (sortSlice lessTop (w.links.entries.map fun e => statsOf e.1 e.2))] at hx hpw
      have hdrop := (List.mem_append.1 hx).resolve_left hout
      exact (List.pairwise_append.1 hpw).2.2 e he _ hdrop
  · rw [h]
    refine ⟨fun hpos => ?_, fun _ => ⟨hlen, hperm, ?_⟩, ?_, hnodup, ?_⟩
    · rw [hlen] at hno ⊢
      have : ¬ n < (w.links.entries.length : Int) := fun hlt => hno ⟨hpos, hlt⟩
      omega
    · intro k link hl
      have hx : statsOf k link ∈ sortSlice lessTop (w.links.entries.map fun e => statsOf e.1 e.2) :=
        hperm.symm.subset ((mem_stats_iff w.links _).2 ⟨link, hl, rfl⟩)
      exact List.count_eq_one_of_mem (List.Nodup.of_map _ hnodup) hx
    · intro e he
      exact (mem_stats_iff w.links e).1 (hperm.subset he)
    · intro k link hl hout
      exact absurd (hperm.symm.subset ((mem_stats_iff w.links _).2 ⟨link, hl, rfl⟩)) hout

/-- C9. For every table with `m` records and every sorting routine that meets
the contract of `sort.Slice`: with `n > 0`, `getTopLinks(n)` has exactly
`min(n, m)` entries, so never more than `n`; with `n <= 0` it has `m` entries
and holds, for every record of the table, exactly once the entry with the
code, original URL, visit count, creation time and owner IP of that record;
in both cases every entry has the original URL, visit count, creation time and
owner IP of the record of the table filed under the entry's code, no two
entries have the same code, and a record whose code is not among the entries
has no more visits than any entry returned. -/
theorem C9_getTopLinks_content
    (sortSlice : (LinkStats → LinkStats → Bool) → List LinkStats → List LinkStats)
    (hsort : SortContract sortSlice) (n : Int) (w : World) :
    (0 < n →
      ((getTopLinks sortSlice n w).length : Int) = min n (w.links.entries.length : Int) ∧
      ((getTopLinks sortSlice n w).length : Int) ≤ n) ∧
    (n ≤ 0 →
      (getTopLinks sortSlice n w).length = w.links.entries.length ∧
      ∀ k link, w.links.lookup k = some link →
        (getTopLinks sortSlice n w).count
          { ShortCode := k, OriginalURL := link.OriginalURL, Visits := link.Visits,
            CreatedAt := link.CreatedAt, IP := link.IP } = 1) ∧
    (∀ e ∈ getTopLinks sortSlice n w,
      ∃ link, w.links.lookup e.ShortCode = some link ∧
        e.OriginalURL = link.OriginalURL ∧ e.Visits = link.Visits ∧
        e.CreatedAt = link.CreatedAt ∧ e.IP = link.IP) ∧
    ((getTopLinks sortSlice n w).map LinkStats.ShortCode).Nodup ∧
    (∀ k link, w.links.lookup k = some link →
      k ∉ (getTopLinks sortSlice n w).map LinkStats.ShortCode →
      ∀ e ∈ getTopLinks sortSlice n w, link.Visits ≤ e.Visits) := by
  obtain ⟨hpos, hall, hcopy, hnd, hout⟩ := getTopLinks_content sortSlice hsort n w
  refine ⟨hpos, fun hn => ⟨(hall hn).1, fun k link hl => (hall hn).2.2 k link hl⟩, ?_, hnd, ?_⟩
  · intro e he
    obtain ⟨link, hl, heq⟩ := hcopy e he
    refine ⟨link, hl, ?_, ?_, ?_, ?_⟩ <;> rw [heq] <;> rfl
  · intro k link hl hk e he
    refine hout k link hl (fun hmem => hk ?_) e he
    exact List.mem_map.2 ⟨_, hmem, rfl⟩

/-- C9 with insertion sort for `sort.Slice`, on the sample state: `n = 1`
returns the entry of `Qw12er`, visited twice, and leaves out `aZ3kq1`, never
visited; `n = 0` returns both. -/
theorem C9_getTopLinks_content_witness :
    SortContract (@insertionSortBy LinkStats) ∧
    getTopLinks insertionSortBy 1 sampleWorld
      = [{ ShortCode := "Qw12er", OriginalURL := "http://go.dev", Visits := 2,
           CreatedAt := 2000, IP := "1.1.1.1" }] ∧
    getTopLinks insertionSortBy 0 sampleWorld
      = [{ ShortCode := "Qw12er", OriginalURL := "http://go.dev", Visits := 2,
           CreatedAt := 2000, IP := "1.1.1.1" },
         { ShortCode := "aZ3kq1", OriginalURL := "https://example.com", Visits := 0,
           CreatedAt := 1000, IP := "1.1.1.1" }] ∧
    (0 < (1 : Int) →
      ((getTopLinks insertionSortBy 1 sampleWorld).length : Int)
        = min 1 (sampleWorld.links.entries.length : Int) ∧
      ((getTopLinks insertionSortBy 1 sampleWorld).length : Int) ≤ 1) ∧
    (∀ e ∈ getTopLinks insertionSortBy 1 sampleWorld,
      ∃ link, sampleWorld.links.lookup e.ShortCode = some link ∧
        e.OriginalURL = link.OriginalURL ∧ e.Visits = link.Visits ∧
        e.CreatedAt = link.CreatedAt ∧ e.IP = link.IP) ∧
    (∀ k link, sampleWorld.links.lookup k = some link →
      k ∉ (getTopLinks insertionSortBy 1 sampleWorld).map LinkStats.ShortCode →
      ∀ e ∈ getTopLinks insertionSortBy 1 sampleWorld, link.Visits ≤ e.Visits) :=
  ⟨insertionSortBy_contract, by decide, by decide,
    (C9_getTopLinks_content insertionSortBy insertionSortBy_contract 1 sampleWorld).1,
    (C9_getTopLinks_content insertionSortBy insertionSortBy_contract 1 sampleWorld).2.2.1,
    (C9_getTopLinks_content insertionSortBy insertionSortBy_contract 1 sampleWorld).2.2.2.2⟩

/-! ## Saving and loading -/

theorem load_links_skip (recs : List Link) (k : String) :
    ∀ acc : GoMap Link × GoMap (List String), (∀ l ∈ recs, l.ShortCode ≠ k) →
      (recs.foldl loadStep acc).1.lookup k = acc.1.lookup k := by
  induction recs with
  | nil => intro acc _; rfl
  | cons x xs ih =>
    intro acc h
    rw [List.foldl_cons, ih _ fun l hl => h l (List.mem_cons_of_mem _ hl)]
    exact AList.lookup_insert_ne (Ne.symm (h x (List.mem_cons_self _ _)))

theorem load_links_found (recs : List Link) (hnd : (recs.map Link.ShortCode).Nodup) :
    ∀ (acc : GoMap Link × GoMap (List String)) (l : Link), l ∈ recs →
      (recs.foldl loadStep acc).1.lookup l.ShortCode = some l := by
  induction recs with
  | nil => intro acc l hl; cases hl
  | cons x xs ih =>
    intro acc l hl
    rw [List.map_cons, List.nodup_cons] at hnd
    rw [List.foldl_cons]
    by_cases hxs : l ∈ xs
    · exact ih hnd.2 _ l hxs
    · have hlx : l = x := (List.mem_cons.1 hl).resolve_right hxs
      subst hlx
      rw [load_links_skip xs l.ShortCode _ fun y hy hyl =>
        hnd.1 (hyl ▸ List.mem_map_of_mem Link.ShortCode hy)]
      exact AList.lookup_insert _

theorem load_codes (recs : List Link) (ip : String) :
    ∀ acc : GoMap Link × GoMap (List String),
      codesOf (recs.foldl loadStep acc).2 ip
        = codesOf acc.2 ip ++ (recs.filter fun l => l.IP = ip).map Link.ShortCode := by
  induction recs with
  | nil => intro acc; simp
  | cons x xs ih =>
    intro acc
    rw [List.foldl_cons, ih]
    by_cases hx : x.IP = ip
    · subst hx
      simp [loadStep, codesOf, AList.lookup_insert]
    · have hne : ip ≠ x.IP := fun h => hx h.symm
      simp [loadStep, codesOf, AList.lookup_insert_ne hne, hx]

/-- The records `saveDatabase` writes, for a table in which every record is
filed under its own code: their codes are the keys of the table. -/
theorem saved_codes (links : GoMap Link) (hkey : WellKeyed links) :
    (links.entries.map fun e => e.2).map Link.ShortCode = links.keys := by
  rw [List.map_map]
  apply List.map_congr_left
  intro e he
  obtain ⟨k, l⟩ := e
  exact hkey k l (AList.mem_lookup_iff.2 he)

theorem load_saved_lookup (links : GoMap Link) (hkey : WellKeyed links) (k : String) :
    ((links.entries.map fun e => e.2).foldl loadStep (∅, ∅)).1.lookup k = links.lookup k := by
  cases hk : links.lookup k with
  | some l =>
    have hmem : l ∈ links.entries.map fun e => e.2 :=
      List.mem_map.2 ⟨⟨k, l⟩, AList.mem_lookup_iff.1 hk, rfl⟩
    have := load_links_found _ (by rw [saved_codes links hkey]; exact links.keys_nodup)
      (∅, ∅) l hmem
    rwa [hkey k l hk] at this
  | none =>
    rw [load_links_skip]
    · rfl
    · intro l hl hlk
      have : l.ShortCode ∈ links.keys := by
        rw [← saved_codes links hkey]
        exact List.mem_map_of_mem _ hl
      rw [hlk] at this
      exact (AList.lookup_eq_none.1 hk) this


/-! ### Every record is filed under its own code -/

theorem wellKeyed_empty : WellKeyed ∅ := by
  intro k l h
  simp at h

theorem wellKeyed_insert (links : GoMap Link) (link : Link) (h : WellKeyed links) :
    WellKeyed (links.insert link.ShortCode link) := by
  intro k l hl
  by_cases hk : k = link.ShortCode
  · subst hk
    rw [AList.lookup_insert] at hl
    cases hl
    rfl
  · rw [AList.lookup_insert_ne hk] at hl
    exact h k l hl

theorem wellKeyed_erase (links : GoMap Link) (c : String) (h : WellKeyed links) :
    WellKeyed (links.erase c) := by
  intro k l hl
  by_cases hk : k = c
  · subst hk
    rw [AList.lookup_erase] at hl
    cases hl
  · rw [AList.lookup_erase_ne hk] at hl
    exact h k l hl

theorem wellKeyed_visit (links : GoMap Link) (c : String) (link : Link)
    (hc : links.lookup c = some link) (h : WellKeyed links) :
    WellKeyed (links.replace c { link with Visits := wrapInt (link.Visits + 1) }) := by
  intro k l hl
  by_cases hk : k = c
  · subst hk
    rw [lookup_replace_self _ _ _ (mem_of_lookup _ _ _ hc)] at hl
    cases hl
    exact h k link hc
  · rw [lookup_replace_ne _ _ _ _ hk] at hl
    exact h k l hl

theorem wellKeyed_load (recs : List Link) :
    ∀ acc : GoMap Link × GoMap (List String), WellKeyed acc.1 →
      WellKeyed (recs.foldl loadStep acc).1 := by
  induction recs with
  | nil => intro acc h; exact h
  | cons x xs ih =>
    intro acc h
    rw [List.foldl_cons]
    exact ih _ (wellKeyed_insert acc.1 x h)

/-- The `/shorten` handler keeps every record filed under its own code. -/
theorem shortenHandler_wellKeyed (w w1 : World) (method u ip domain : String) (now : Int)
    (r : Response) (hfree : w.mutex = .free) (h : WellKeyed w.links)
    (hrun : shortenHandler method u ip domain now w = .done r w1) : WellKeyed w1.links := by
  by_cases hm : method = "POST"
  · by_cases hu : u = ""
    · simp [shortenHandler, hm, hu] at hrun
      rw [← hrun.2]
      exact h
    · subst hm
      rw [shortenHandler_run w u ip domain now hfree hu] at hrun
      simp only [Outcome.done.injEq] at hrun
      rw [← hrun.2]
      exact wellKeyed_insert w.links
        { OriginalURL := normalizeURL u, ShortCode := String.mk (codeBytes 6 w.rand),
          CreatedAt := now, IP := ip, Visits := 0 } h
  · simp [shortenHandler, hm] at hrun
    rw [← hrun.2]
    exact h

/-- The redirect branch keeps every record filed under its own code. -/
theorem resolve_wellKeyed (w w1 : World) (c : String) (r : Option String)
    (hfree : w.mutex = .free) (h : WellKeyed w.links)
    (hrun : resolve c w = .done r w1) : WellKeyed w1.links := by
  cases hc : w.links.lookup c with
  | none =>
    rw [resolve_missing w c hfree hc] at hrun
    simp only [Outcome.done.injEq] at hrun
    rw [← hrun.2]
    exact h
  | some link =>
    rw [resolve_found w c link hfree hc] at hrun
    simp only [Outcome.done.injEq] at hrun
    rw [← hrun.2]
    exact wellKeyed_visit w.links c link hc h

/-- Loading a snapshot files every record under its own code. -/
theorem loadDatabase_wellKeyed (w : World) (recs : List Link) (hfree : w.mutex = .free)
    (hfile : w.dbFile = .snapshot recs) :
    ∃ w1, loadDatabase w = .done () w1 ∧ WellKeyed w1.links :=
  ⟨_, loadDatabase_snapshot w recs hfree hfile, wellKeyed_load recs (∅, ∅) wellKeyed_empty⟩

theorem sampleWorld_wellKeyed : WellKeyed sampleWorld.links := by
  have h1 : WellKeyed (AList.singleton "aZ3kq1" sampleLink) := by
    rw [← AList.insert_empty]
    exact wellKeyed_insert ∅ sampleLink wellKeyed_empty
  exact wellKeyed_insert _ otherLink h1

/-- C10. For every state with the lock free in which every record is filed
under its own short code: `saveDatabase` returns and leaves the table alone;
`loadDatabase`, run on the file it wrote from any contents of the two maps
(empty after a restart), returns with a table that has the same record, all
five fields alike, under every code, so the same entries up to order, and
with an owner index whose list for every address has no code twice and holds
exactly the codes of the loaded records owned by that address. -/
theorem C10_save_load_roundtrip (w : World) (l0 : GoMap Link) (i0 : GoMap (List String))
    (hfree : w.mutex = .free) (hkey : WellKeyed w.links) :
    ∃ w1 w2, saveDatabase w = .done () w1 ∧ w1.links = w.links ∧
      loadDatabase { w1 with links := l0, ipLinks := i0 } = .done () w2 ∧
      (∀ k, w2.links.lookup k = w.links.lookup k) ∧
      w2.links.entries.Perm w.links.entries ∧
      (∀ ip, (codesOf w2.ipLinks ip).Nodup ∧
        ∀ c, c ∈ codesOf w2.ipLinks ip ↔
          ∃ link, w2.links.lookup c = some link ∧ link.IP = ip) := by
  have hlook := load_saved_lookup w.links hkey
  refine ⟨_, _, saveDatabase_free w hfree, rfl,
    loadDatabase_snapshot _ (w.links.entries.map fun e => e.2) hfree rfl, hlook, ?_, ?_⟩
  · apply List.lookup_ext (AList.nodupKeys _) (AList.nodupKeys _)
    intro k l
    have := hlook k
    simp only [AList.lookup] at this
    simp only [this]
  · intro ip
    have hcodes := load_codes (w.links.entries.map fun e => e.2) ip (∅, ∅)
    have hempty : codesOf (∅ : GoMap (List String)) ip = [] := by simp [codesOf]
    simp only [hempty, List.nil_append] at hcodes
    simp only [hcodes]
    constructor
    · have hnd : ((w.links.entries.map fun e => e.2).map Link.ShortCode).Nodup := by
        rw [saved_codes w.links hkey]
        exact w.links.keys_nodup
      exact hnd.sublist ((List.filter_sublist _).map _)
    · intro c
      simp only [List.mem_map, List.mem_filter, decide_eq_true_eq, hlook]
      constructor
      · rintro ⟨l, ⟨⟨e, he, rfl⟩, hip⟩, rfl⟩
        obtain ⟨k, l⟩ := e
        have hl := AList.mem_lookup_iff.2 he
        have hk := hkey k l hl
        exact ⟨l, by rw [hk]; exact hl, hip⟩
      · rintro ⟨l, hl, hip⟩
        exact ⟨l, ⟨⟨⟨c, l⟩, AList.mem_lookup_iff.1 hl, rfl⟩, hip⟩, hkey c l hl⟩

/-- C10 on the sample state, loaded into empty maps as after a restart. -/
theorem C10_save_load_roundtrip_witness :
    sampleWorld.mutex = .free ∧ WellKeyed sampleWorld.links ∧
    ∃ w1 w2, saveDatabase sampleWorld = .done () w1 ∧ w1.links = sampleWorld.links ∧
      loadDatabase { w1 with links := ∅, ipLinks := ∅ } = .done () w2 ∧
      (∀ k, w2.links.lookup k = sampleWorld.links.lookup k) ∧
      w2.links.entries.Perm sampleWorld.links.entries ∧
      (∀ ip, (codesOf w2.ipLinks ip).Nodup ∧
        ∀ c, c ∈ codesOf w2.ipLinks ip ↔
          ∃ link, w2.links.lookup c = some link ∧ link.IP = ip) :=
  ⟨rfl, sampleWorld_wellKeyed,
    C10_save_load_roundtrip sampleWorld ∅ ∅ rfl sampleWorld_wellKeyed⟩

/-! ## What an operation does to the two maps -/

/-- The maps after the `/shorten` handler has run, from any state of the
lock: as before, or with the new record and the new code added. -/
theorem shorten_tables (w : World) (method u ip domain : String) (now : Int) :
    ((shortenHandler method u ip domain now w).world.links = w.links ∧
      (shortenHandler method u ip domain now w).world.ipLinks = w.ipLinks) ∨
    (method = "POST" ∧ u ≠ "" ∧
      (shortenHandler method u ip domain now w).world.links
        = w.links.insert (String.mk (codeBytes 6 w.rand))
            { OriginalURL := normalizeURL u, ShortCode := String.mk (codeBytes 6 w.rand),
              CreatedAt := now, IP := ip, Visits := 0 } ∧
      (shortenHandler method u ip domain now w).world.ipLinks
        = w.ipLinks.insert ip (codesOf w.ipLinks ip ++ [String.mk (codeBytes 6 w.rand)])) := by
  obtain ⟨links, ipLinks, mutex, dbFile, rand, spawned⟩ := w
  by_cases hm : method = "POST"
  · by_cases hu : u = ""
    · left
      simp [shortenHandler, hm, hu, Outcome.world]
    · cases mutex with
      | free =>
        right
        subst hm
        rw [shortenHandler_run _ u ip domain now rfl hu]
        exact ⟨rfl, hu, rfl, rfl⟩
      | readers k =>
        left
        simp [shortenHandler, hm, hu, Exec.bind, generateCode, mutexLock, Outcome.world]
      | writer =>
        left
        simp [shortenHandler, hm, hu, Exec.bind, generateCode, mutexLock, Outcome.world]
  · left
    simp [shortenHandler, hm, Outcome.world]

/-- The maps after the redirect branch has run, from any state of the lock:
the owner index as before, and the table as before or with one more visit on
the record of the code. -/
theorem resolve_tables (w : World) (c : String) :
    (resolve c w).world.ipLinks = w.ipLinks ∧
    ((resolve c w).world.links = w.links ∨
      ∃ link, w.links.lookup c = some link ∧
        (resolve c w).world.links
          = w.links.replace c { link with Visits := wrapInt (link.Visits + 1) }) := by
  obtain ⟨links, ipLinks, mutex, dbFile, rand, spawned⟩ := w
  cases hc : AList.lookup c links with
  | none =>
    cases mutex with
    | free => simp [resolve, Exec.bind, mutexRLock, mutexRUnlock, hc, Outcome.world]
    | writer => simp [resolve, Exec.bind, mutexRLock, Outcome.world]
    | readers k =>
      cases k <;> simp [resolve, Exec.bind, mutexRLock, mutexRUnlock, hc, Outcome.world]
  | some link =>
    cases mutex with
    | free =>
      simp [resolve, Exec.bind, mutexRLock, mutexRUnlock, mutexLock, mutexUnlock, hc,
        Outcome.world]
    | writer => simp [resolve, Exec.bind, mutexRLock, Outcome.world]
    | readers k =>
      cases k <;>
        simp [resolve, Exec.bind, mutexRLock, mutexRUnlock, mutexLock, mutexUnlock, hc,
          Outcome.world]

/-- The maps after the `/delete/` handler has run, from any state of the
lock: as before, or, for a code owned by the requester, without the record
and without the code in the list of the requester. -/
theorem delete_tables (w : World) (c ip : String) :
    ((deleteHandler c ip w).world.links = w.links ∧
      (deleteHandler c ip w).world.ipLinks = w.ipLinks) ∨
    (∃ link, w.links.lookup c = some link ∧ link.IP = ip ∧
      (deleteHandler c ip w).world.links = w.links.erase c ∧
      (deleteHandler c ip w).world.ipLinks =
        match w.ipLinks.lookup ip with
        | some codes => w.ipLinks.replace ip (codes.filter fun x => x != c)
        | none => w.ipLinks) := by
  by_cases hne : c = ""
  · left
    simp [deleteHandler, hne, Outcome.world]
  · by_cases hfree : w.mutex = .free
    · cases hc : w.links.lookup c with
      | none =>
        left
        rw [deleteHandler_noop w c ip hfree (by simp [hc])]
        exact ⟨rfl, rfl⟩
      | some link =>
        by_cases hip : link.IP = ip
        · right
          rw [deleteHandler_owner w c ip link hfree hne hc hip]
          exact ⟨link, rfl, hip, rfl, rfl⟩
        · left
          rw [deleteHandler_noop w c ip hfree (by simp [hc, hip])]
          exact ⟨rfl, rfl⟩
    · left
      obtain ⟨links, ipLinks, mutex, dbFile, rand, spawned⟩ := w
      cases mutex with
      | free => exact absurd rfl hfree
      | readers k => simp [deleteHandler, hne, Exec.bind, mutexLock, Outcome.world]
      | writer => simp [deleteHandler, hne, Exec.bind, mutexLock, Outcome.world]

/-! ## The owner index and the record table -/

theorem consistent_congr (w v : World) (h1 : v.links = w.links) (h2 : v.ipLinks = w.ipLinks)
    (h : Consistent w) : Consistent v := by
  intro ip
  rw [h1, h2]
  exact h ip

theorem consistent_emptyStore (rand : Nat → Nat) : Consistent (emptyStore rand) := by
  intro ip
  simp [emptyStore, codesOf]

theorem codesOf_insert (ipLinks : GoMap (List String)) (ip0 ip : String) (l : List String) :
    codesOf (ipLinks.insert ip0 l) ip = if ip = ip0 then l else codesOf ipLinks ip := by
  by_cases h : ip = ip0
  · subst h
    simp [codesOf, AList.lookup_insert]
  · simp [codesOf, AList.lookup_insert_ne h, h]

theorem codesOf_delete (ipLinks : GoMap (List String)) (ip0 ip c : String) :
    codesOf (match ipLinks.lookup ip0 with
        | some codes => ipLinks.replace ip0 (codes.filter fun x => x != c)
        | none => ipLinks) ip
      = if ip = ip0 then (codesOf ipLinks ip0).filter (fun x => x != c)
        else codesOf ipLinks ip := by
  cases hcodes : ipLinks.lookup ip0 with
  | none =>
    by_cases h : ip = ip0
    · subst h
      simp [codesOf, hcodes]
    · simp [h]
  | some codes =>
    by_cases h : ip = ip0
    · subst h
      simp [codesOf, hcodes, lookup_replace_self _ _ _ (mem_of_lookup _ _ _ hcodes)]
    · simp [codesOf, lookup_replace_ne _ _ _ _ h, h]

/-- Adding a record under a code that is not in the table, and the code to the
list of its owner, keeps the index in agreement with the table. -/
theorem consistent_insert (w v : World) (k : String) (link : Link)
    (hk : w.links.lookup k = none)
    (h1 : v.links = w.links.insert k link)
    (h2 : v.ipLinks = w.ipLinks.insert link.IP (codesOf w.ipLinks link.IP ++ [k]))
    (h : Consistent w) : Consistent v := by
  intro ip
  have hknot : ∀ a, k ∉ codesOf w.ipLinks a := by
    intro a ha
    obtain ⟨l, hl, _⟩ := ((h a).2 k).1 ha
    rw [hk] at hl
    cases hl
  have hlook : ∀ c, c ≠ k → v.links.lookup c = w.links.lookup c := by
    intro c hc
    rw [h1, AList.lookup_insert_ne hc]
  have hlookk : v.links.lookup k = some link := by
    rw [h1, AList.lookup_insert]
  rw [h2, codesOf_insert]
  by_cases hip : ip = link.IP
  · subst hip
    rw [if_pos rfl]
    refine ⟨?_, ?_⟩
    · rw [List.nodup_append]
      refine ⟨(h link.IP).1, List.nodup_singleton k, ?_⟩
      intro a ha hak
      rw [List.mem_singleton] at hak
      subst hak
      exact hknot link.IP ha
    · intro c
      by_cases hc : c = k
      · subst hc
        simp [hlookk]
      · rw [hlook c hc, ← (h link.IP).2 c]
        simp [hc]
  · rw [if_neg hip]
    refine ⟨(h ip).1, ?_⟩
    intro c
    by_cases hc : c = k
    · subst hc
      constructor
      · intro hmem
        exact absurd hmem (hknot ip)
      · rintro ⟨l, hl, hlip⟩
        rw [hlookk] at hl
        cases hl
        exact absurd hlip.symm hip
    · rw [hlook c hc]
      exact (h ip).2 c

/-- One more visit on a record keeps the index in agreement with the table. -/
theorem consistent_visit (w v : World) (k : String) (link : Link)
    (hk : w.links.lookup k = some link)
    (h1 : v.links = w.links.replace k { link with Visits := wrapInt (link.Visits + 1) })
    (h2 : v.ipLinks = w.ipLinks) (h : Consistent w) : Consistent v := by
  intro ip
  rw [h2]
  refine ⟨(h ip).1, ?_⟩
  intro c
  rw [(h ip).2 c, h1]
  by_cases hc : c = k
  · subst hc
    rw [lookup_replace_self _ _ _ (mem_of_lookup _ _ _ hk), hk]
    constructor
    · rintro ⟨l, hl, hlip⟩
      cases hl
      exact ⟨_, rfl, hlip⟩
    · rintro ⟨l, hl, hlip⟩
      cases hl
      exact ⟨_, rfl, hlip⟩
  · rw [lookup_replace_ne _ _ _ _ hc]

/-- Removing a record, and its code from the list of its owner, keeps the index
in agreement with the table. -/
theorem consistent_delete (w v : World) (k : String) (link : Link)
    (hk : w.links.lookup k = some link)
    (h1 : v.links = w.links.erase k)
    (h2 : v.ipLinks = match w.ipLinks.lookup link.IP with
        | some codes => w.ipLinks.replace link.IP (codes.filter fun x => x != k)
        | none => w.ipLinks)
    (h : Consistent w) : Consistent v := by
  intro ip
  have hlook : ∀ c, c ≠ k → v.links.lookup c = w.links.lookup c := by
    intro c hc
    rw [h1, AList.lookup_erase_ne hc]
  have hlookk : v.links.lookup k = none := by
    rw [h1, AList.lookup_erase]
  rw [h2, codesOf_delete]
  by_cases hip : ip = link.IP
  · subst hip
    rw [if_pos rfl]
    refine ⟨(h link.IP).1.filter _, ?_⟩
    intro c
    by_cases hc : c = k
    · subst hc
      simp [hlookk]
    · rw [hlook c hc, ← (h link.IP).2 c]
      simp [hc]
  · rw [if_neg hip]
    refine ⟨(h ip).1, ?_⟩
    intro c
    by_cases hc : c = k
    · subst hc
      constructor
      · intro hmem
        obtain ⟨l, hl, hlip⟩ := ((h ip).2 c).1 hmem
        rw [hk] at hl
        cases hl
        exact absurd hlip.symm hip
      · rintro ⟨l, hl, _⟩
        rw [hlookk] at hl
        cases hl
    · rw [hlook c hc]
      exact (h ip).2 c

/-- Every operation that is not a colliding Create keeps the index in
agreement with the table, whatever the state of the lock. -/
theorem consistent_after (w : World) (op : Op) (hnc : op.collides w = false)
    (h : Consistent w) : Consistent (op.after w) := by
  cases op with
  | create method url ip domain now =>
    rcases shorten_tables w method url ip domain now with ⟨h1, h2⟩ | ⟨hm, hu, h1, h2⟩
    · exact consistent_congr w _ h1 h2 h
    · have hk : w.links.lookup (String.mk (codeBytes 6 w.rand)) = none := by
        simp only [Op.collides, hm] at hnc
        have := hnc
        simp at this
        exact this hu
      exact consistent_insert w _ (String.mk (codeBytes 6 w.rand))
        { OriginalURL := normalizeURL url, ShortCode := String.mk (codeBytes 6 w.rand),
          CreatedAt := now, IP := ip, Visits := 0 } hk h1 h2 h
  | resolve code =>
    rcases (resolve_tables w code).2 with h1 | ⟨link, hl, h1⟩
    · exact consistent_congr w _ h1 (resolve_tables w code).1 h
    · exact consistent_visit w _ code link hl h1 (resolve_tables w code).1 h
  | delete code ip =>
    rcases delete_tables w code ip with ⟨h1, h2⟩ | ⟨link, hl, hip, h1, h2⟩
    · exact consistent_congr w _ h1 h2 h
    · subst hip
      exact consistent_delete w _ code link hl h1 h2 h

theorem consistent_runOps (ops : List Op) :
    ∀ w : World, Consistent w → collisionFree ops w = true → Consistent (runOps ops w) := by
  induction ops with
  | nil => intro w h _; exact h
  | cons op ops ih =>
    intro w h hfree
    simp only [collisionFree, Bool.and_eq_true, Bool.not_eq_true'] at hfree
    exact ih (op.after w) (consistent_after w op hfree.1 h) hfree.2


/-! ## The list of the `/my` handler -/

/-- Run from a free lock, the `/my` handler returns its list and leaves the
process state as it was. -/
theorem myHandler_free
    (sortSlice : (LinkStats → LinkStats → Bool) → List LinkStats → List LinkStats)
    (ip : String) (w : World) (hfree : w.mutex = .free) :
    myHandler sortSlice ip w = .done (userLinks sortSlice ip w) w := by
  obtain ⟨links, ipLinks, mutex, dbFile, rand, spawned⟩ := w
  simp only at hfree
  subst hfree
  simp [myHandler, Exec.bind, mutexRLock, mutexRUnlock, userLinks]

/-- The list of the `/my` handler is a rearrangement of the entries built
from the codes of the requester that are keys of the table. -/
theorem userLinks_perm
    (sortSlice : (LinkStats → LinkStats → Bool) → List LinkStats → List LinkStats)
    (hsort : SortContract sortSlice) (ip : String) (w : World) :
    (userLinks sortSlice ip w).Perm
      ((codesOf w.ipLinks ip).filterMap fun code =>
        (w.links.lookup code).map fun link => ownerStats code link) := by
  unfold userLinks
  by_cases h : codesOf w.ipLinks ip = []
  · simp [h]
  · have hlen : ((codesOf w.ipLinks ip).length == 0) = false := by
      simpa using h
    simp only [hlen]
    exact (hsort lessVisits _).1

theorem built_codes_sublist (links : GoMap Link) (codes : List String) :
    ((codes.filterMap fun code => (links.lookup code).map fun link => ownerStats code link).map
      LinkStats.ShortCode).Sublist codes := by
  induction codes with
  | nil => simp
  | cons x xs ih =>
    cases hx : links.lookup x with
    | none =>
      rw [List.filterMap_cons_none (by simp [hx])]
      exact ih.cons x
    | some link =>
      rw [List.filterMap_cons_some (by simp [hx] : _ = some (ownerStats x link))]
      exact ih.cons₂ x

/-- With the index in agreement with the table, the list of the `/my` handler
shows exactly the records of the requester. -/
theorem ownerListing_of_consistent
    (sortSlice : (LinkStats → LinkStats → Bool) → List LinkStats → List LinkStats)
    (hsort : SortContract sortSlice) (ip : String) (w : World) (h : Consistent w) :
    OwnerListing (userLinks sortSlice ip w) ip w := by
  have hperm := userLinks_perm sortSlice hsort ip w
  have hnd : ((userLinks sortSlice ip w).map LinkStats.ShortCode).Nodup := by
    rw [(hperm.map LinkStats.ShortCode).nodup_iff]
    exact (h ip).1.sublist (built_codes_sublist w.links _)
  have hmem : ∀ e, e ∈ userLinks sortSlice ip w ↔
      ∃ code ∈ codesOf w.ipLinks ip, ∃ link, w.links.lookup code = some link ∧
        e = ownerStats code link := by
    intro e
    rw [hperm.mem_iff, List.mem_filterMap]
    constructor
    · rintro ⟨code, hcode, he⟩
      obtain ⟨link, hl, rfl⟩ := Option.map_eq_some'.1 he
      exact ⟨code, hcode, link, hl, rfl⟩
    · rintro ⟨code, hcode, link, hl, rfl⟩
      exact ⟨code, hcode, by simp [hl]⟩
  refine ⟨?_, ?_, hnd⟩
  · intro c link hl hip
    have hc : c ∈ codesOf w.ipLinks ip := ((h ip).2 c).2 ⟨link, hl, hip⟩
    exact List.count_eq_one_of_mem (List.Nodup.of_map _ hnd)
      ((hmem _).2 ⟨c, hc, link, hl, rfl⟩)
  · intro e he
    obtain ⟨code, hcode, link, hl, rfl⟩ := (hmem e).1 he
    obtain ⟨link2, hl2, hip⟩ := ((h ip).2 code).1 hcode
    rw [hl] at hl2
    cases hl2
    exact ⟨link, hl, hip, rfl, rfl, rfl, rfl⟩

/-- A Create or a Resolve run from a free lock leaves the lock free. -/
theorem after_free (w : World) (op : Op) (hfree : w.mutex = .free)
    (hop : ∀ c a, op ≠ .delete c a) : (op.after w).mutex = .free := by
  cases op with
  | create method url ip domain now =>
    by_cases hm : method = "POST"
    · by_cases hu : url = ""
      · simp [Op.after, shortenHandler, hm, hu, Outcome.world, hfree]
      · subst hm
        simp only [Op.after]
        rw [shortenHandler_run w url ip domain now hfree hu]
        exact hfree
    · simp [Op.after, shortenHandler, hm, Outcome.world, hfree]
  | resolve code =>
    simp only [Op.after]
    cases hc : w.links.lookup code with
    | none =>
      rw [resolve_missing w code hfree hc]
      exact hfree
    | some link =>
      rw [resolve_found w code link hfree hc]
      exact hfree
  | delete code ip => exact absurd rfl (hop code ip)

theorem runOps_free (ops : List Op) :
    ∀ w : World, w.mutex = .free → (∀ op ∈ ops, ∀ c a, op ≠ .delete c a) →
      (runOps ops w).mutex = .free := by
  induction ops with
  | nil => intro w h _; exact h
  | cons op ops ih =>
    intro w h hops
    exact ih (op.after w) (after_free w op h (hops op (List.mem_cons_self _ _)))
      fun o ho => hops o (List.mem_cons_of_mem _ ho)

/-- C11, the claim as stated fails. From the empty store, with a random source
that repeats itself, a Create by `1.1.1.1` and a Create by `2.2.2.2` generate
the same code `aaaaaa`; the second record replaces the first under that code,
and the code stays in the list of `1.1.1.1`. The `/my` handler then shows to
`1.1.1.1` the record owned by `2.2.2.2`. -/
theorem C11_owner_listing_counterexample :
    (runOps twoCreates (emptyStore zeroSource)).links.lookup "aaaaaa"
      = some { OriginalURL := "https://b.com", ShortCode := "aaaaaa", CreatedAt := 2000,
               IP := "2.2.2.2", Visits := 0 } ∧
    myHandler insertionSortBy "1.1.1.1" (runOps twoCreates (emptyStore zeroSource))
      = .done [{ ShortCode := "aaaaaa", OriginalURL := "https://b.com", Visits := 0,
                 CreatedAt := 2000, IP := "" }]
          (runOps twoCreates (emptyStore zeroSource)) ∧
    ¬ (∀ (sortSlice : (LinkStats → LinkStats → Bool) → List LinkStats → List LinkStats)
        (ops : List Op) (rand : Nat → Nat) (ip : String), SortContract sortSlice →
        OwnerListing (userLinks sortSlice ip (runOps ops (emptyStore rand))) ip
          (runOps ops (emptyStore rand))) := by
  have hl : (runOps twoCreates (emptyStore zeroSource)).links.lookup "aaaaaa"
      = some { OriginalURL := "https://b.com", ShortCode := "aaaaaa", CreatedAt := 2000,
               IP := "2.2.2.2", Visits := 0 } := by decide
  have hlist : userLinks insertionSortBy "1.1.1.1" (runOps twoCreates (emptyStore zeroSource))
      = [{ ShortCode := "aaaaaa", OriginalURL := "https://b.com", Visits := 0,
           CreatedAt := 2000, IP := "" }] := by decide
  refine ⟨hl, ?_, ?_⟩
  · rw [myHandler_free insertionSortBy "1.1.1.1" _ (by decide), hlist]
  · intro hall
    have h := (hall insertionSortBy twoCreates zeroSource "1.1.1.1" insertionSortBy_contract).2.1
    rw [hlist] at h
    obtain ⟨link, hlk, hip, _⟩ := h _ (List.mem_singleton.2 rfl)
    have hlk2 : (runOps twoCreates (emptyStore zeroSource)).links.lookup "aaaaaa" = some link :=
      hlk
    rw [hl] at hlk2
    cases hlk2
    revert hip
    decide

/-- C11, amended. In every state reached from the empty store by a sequence
of Create, Resolve and Delete operations in which no Create generates a code
that is already a key of the record table, and for every sorting routine that
meets the contract of `sort.Slice`: the list the `/my` handler computes for
`ip` shows every record of the table owned by `ip` exactly once and nothing
else, so no record owned by another address; the handler returns that list
whenever the lock is free, which it is after every sequence without a
Delete. -/
theorem C11_owner_index_consistent
    (sortSlice : (LinkStats → LinkStats → Bool) → List LinkStats → List LinkStats)
    (hsort : SortContract sortSlice) (ops : List Op) (rand : Nat → Nat) (ip : String)
    (hfresh : collisionFree ops (emptyStore rand) = true) :
    OwnerListing (userLinks sortSlice ip (runOps ops (emptyStore rand))) ip
      (runOps ops (emptyStore rand)) ∧
    ((runOps ops (emptyStore rand)).mutex = .free →
      myHandler sortSlice ip (runOps ops (emptyStore rand))
        = .done (userLinks sortSlice ip (runOps ops (emptyStore rand)))
            (runOps ops (emptyStore rand))) ∧
    ((∀ op ∈ ops, ∀ c a, op ≠ .delete c a) → (runOps ops (emptyStore rand)).mutex = .free) :=
  ⟨ownerListing_of_consistent sortSlice hsort ip _
      (consistent_runOps ops _ (consistent_emptyStore rand) hfresh),
    fun hfree => myHandler_free sortSlice ip _ hfree,
    fun hops => runOps_free ops _ rfl hops⟩

/-- C11 as amended, with insertion sort for `sort.Slice`: two Creates with
different codes, a Resolve of the first code and a Delete refused to a
stranger, then the list of `1.1.1.1`. -/
theorem C11_owner_index_consistent_witness :
    SortContract (@insertionSortBy LinkStats) ∧
    collisionFree
      [.create "POST" "a.com" "1.1.1.1" "http://localhost:8974" 1000, .resolve "abcdef",
       .create "POST" "b.com" "2.2.2.2" "http://localhost:8974" 2000,
       .delete "abcdef" "2.2.2.2"] (emptyStore countingSource) = true ∧
    userLinks insertionSortBy "1.1.1.1" (runOps
      [.create "POST" "a.com" "1.1.1.1" "http://localhost:8974" 1000, .resolve "abcdef",
       .create "POST" "b.com" "2.2.2.2" "http://localhost:8974" 2000,
       .delete "abcdef" "2.2.2.2"] (emptyStore countingSource))
      = [{ ShortCode := "abcdef", OriginalURL := "https://a.com", Visits := 1,
           CreatedAt := 1000, IP := "" }] ∧
    OwnerListing (userLinks insertionSortBy "1.1.1.1" (runOps
      [.create "POST" "a.com" "1.1.1.1" "http://localhost:8974" 1000, .resolve "abcdef",
       .create "POST" "b.com" "2.2.2.2" "http://localhost:8974" 2000,
       .delete "abcdef" "2.2.2.2"] (emptyStore countingSource))) "1.1.1.1" (runOps
      [.create "POST" "a.com" "1.1.1.1" "http://localhost:8974" 1000, .resolve "abcdef",
       .create "POST" "b.com" "2.2.2.2" "http://localhost:8974" 2000,
       .delete "abcdef" "2.2.2.2"] (emptyStore countingSource)) :=
  ⟨insertionSortBy_contract, by decide, by decide,
    (C11_owner_index_consistent insertionSortBy insertionSortBy_contract
      [.create "POST" "a.com" "1.1.1.1" "http://localhost:8974" 1000, .resolve "abcdef",
       .create "POST" "b.com" "2.2.2.2" "http://localhost:8974" 2000,
       .delete "abcdef" "2.2.2.2"] countingSource "1.1.1.1" (by decide)).1⟩


/-! ## Record lifecycle -/

/-- C12, the claim as stated fails, in two ways. From the empty store, with a
random source that repeats itself, a Create by `1.1.1.1` files a record under
`aaaaaa`; a second Create, by `2.2.2.2`, generates the same code and files
its own record there: the record of `aaaaaa` has another original URL,
creation time and owner, and the operation was not a Delete. And a Resolve of
a record whose visit count is the largest value of `int` leaves the record
with a smaller count. -/
theorem C12_lifecycle_counterexample :
    (runOps [.create "POST" "a.com" "1.1.1.1" "http://localhost:8974" 1000]
        (emptyStore zeroSource)).links.lookup "aaaaaa"
      = some { OriginalURL := "https://a.com", ShortCode := "aaaaaa", CreatedAt := 1000,
               IP := "1.1.1.1", Visits := 0 } ∧
    (runOps twoCreates (emptyStore zeroSource)).links.lookup "aaaaaa"
      = some { OriginalURL := "https://b.com", ShortCode := "aaaaaa", CreatedAt := 2000,
               IP := "2.2.2.2", Visits := 0 } ∧
    ¬ Lifecycle (.create "POST" "b.com" "2.2.2.2" "http://localhost:8974" 2000)
        (runOps [.create "POST" "a.com" "1.1.1.1" "http://localhost:8974" 1000]
          (emptyStore zeroSource)) "aaaaaa" ∧
    fullWorld.links.lookup "aZ3kq1" = some fullLink ∧
    ((Op.resolve "aZ3kq1").after fullWorld).links.lookup "aZ3kq1"
      = some { fullLink with Visits := -9223372036854775808 } ∧
    ¬ Lifecycle (.resolve "aZ3kq1") fullWorld "aZ3kq1" ∧
    ¬ ∀ (w : World) (op : Op) (c : String), Lifecycle op w c := by
  have hcol : ¬ Lifecycle (.create "POST" "b.com" "2.2.2.2" "http://localhost:8974" 2000)
      (runOps [.create "POST" "a.com" "1.1.1.1" "http://localhost:8974" 1000]
        (emptyStore zeroSource)) "aaaaaa" := by
    intro h
    have h1 := h
      { OriginalURL := "https://a.com", ShortCode := "aaaaaa", CreatedAt := 1000,
        IP := "1.1.1.1", Visits := 0 } (by decide)
    rcases h1 with ⟨link1, hl, _, _, hip, _⟩ | ⟨_, hop⟩
    · have hl2 : (Op.after (.create "POST" "b.com" "2.2.2.2" "http://localhost:8974" 2000)
          (runOps [.create "POST" "a.com" "1.1.1.1" "http://localhost:8974" 1000]
            (emptyStore zeroSource))).links.lookup "aaaaaa"
          = some { OriginalURL := "https://b.com", ShortCode := "aaaaaa", CreatedAt := 2000,
                   IP := "2.2.2.2", Visits := 0 } := by decide
      rw [hl2] at hl
      cases hl
      revert hip
      decide
    · cases hop
  have hafter : ((Op.resolve "aZ3kq1").after fullWorld).links.lookup "aZ3kq1"
      = some { fullLink with Visits := -9223372036854775808 } := by decide
  have hwrap : ¬ Lifecycle (.resolve "aZ3kq1") fullWorld "aZ3kq1" := by
    intro h
    rcases h fullLink (by decide) with ⟨link1, hl, _, _, _, hv⟩ | ⟨_, hop⟩
    · rw [hafter] at hl
      cases hl
      revert hv
      decide
    · cases hop
  exact ⟨by decide, by decide, hcol, by decide, hafter, hwrap, fun h => hcol (h _ _ _)⟩

/-- C12, amended. For every state, every code `c` present before, and every
operation among Create, Resolve and Delete other than a Create that generates
the code `c` and other than a Resolve of `c` when its visit count is the
largest value of `int`: in the state the handler leaves behind, either the
record of `c` is still present with the same original URL, creation time and
owner IP and a visit count not smaller than before, or it is absent and the
operation was a Delete of `c` requested from the owner IP of the record. -/
theorem C12_record_lifecycle (w : World) (op : Op) (c : String)
    (hgen : op.generates w c = false)
    (hmax : ∀ link, w.links.lookup c = some link → op = .resolve c → link.Visits < maxInt) :
    Lifecycle op w c := by
  intro link hl
  cases op with
  | create method url ip domain now =>
    left
    refine ⟨link, ?_, rfl, rfl, rfl, le_refl _⟩
    rcases shorten_tables w method url ip domain now with ⟨h1, _⟩ | ⟨hm, hu, h1, _⟩
    · show (shortenHandler method url ip domain now w).world.links.lookup c = some link
      rw [h1, hl]
    · have hne : c ≠ String.mk (codeBytes 6 w.rand) := by
        intro hcc
        simp [Op.generates, hm, hu, hcc] at hgen
      show (shortenHandler method url ip domain now w).world.links.lookup c = some link
      rw [h1, AList.lookup_insert_ne hne, hl]
  | resolve code =>
    left
    rcases (resolve_tables w code).2 with h1 | ⟨link0, hl0, h1⟩
    · refine ⟨link, ?_, rfl, rfl, rfl, le_refl _⟩
      show (resolve code w).world.links.lookup c = some link
      rw [h1, hl]
    · by_cases hcc : c = code
      · subst hcc
        rw [hl] at hl0
        cases hl0
        refine ⟨{ link with Visits := wrapInt (link.Visits + 1) }, ?_, rfl, rfl, rfl, ?_⟩
        · show (resolve c w).world.links.lookup c = _
          rw [h1, lookup_replace_self _ _ _ (mem_of_lookup _ _ _ hl)]
        · exact le_wrapInt_succ link.Visits (hmax link hl rfl)
      · refine ⟨link, ?_, rfl, rfl, rfl, le_refl _⟩
        show (resolve code w).world.links.lookup c = some link
        rw [h1, lookup_replace_ne _ _ _ _ hcc, hl]
  | delete code ip =>
    rcases delete_tables w code ip with ⟨h1, _⟩ | ⟨link0, hl0, hip, h1, _⟩
    · left
      refine ⟨link, ?_, rfl, rfl, rfl, le_refl _⟩
      show (deleteHandler code ip w).world.links.lookup c = some link
      rw [h1, hl]
    · by_cases hcc : c = code
      · subst hcc
        rw [hl] at hl0
        cases hl0
        right
        refine ⟨?_, by rw [hip]⟩
        show (deleteHandler c ip w).world.links.lookup c = none
        rw [h1, AList.lookup_erase]
      · left
        refine ⟨link, ?_, rfl, rfl, rfl, le_refl _⟩
        show (deleteHandler code ip w).world.links.lookup c = some link
        rw [h1, AList.lookup_erase_ne hcc, hl]

theorem sampleWorld_other (link : Link) (h : sampleWorld.links.lookup "Qw12er" = some link) :
    link = otherLink := by
  have h1 : sampleWorld.links.lookup "Qw12er" = some otherLink := by decide
  rw [h1] at h
  cases h
  rfl

/-- C12 as amended, on the sample state: a Resolve of `Qw12er`, whose record
goes from two visits to three and is otherwise the same. -/
theorem C12_record_lifecycle_witness :
    (Op.resolve "Qw12er").generates sampleWorld "Qw12er" = false ∧
    (∀ link, sampleWorld.links.lookup "Qw12er" = some link →
      Op.resolve "Qw12er" = .resolve "Qw12er" → link.Visits < maxInt) ∧
    sampleWorld.links.lookup "Qw12er" = some otherLink ∧
    ((Op.resolve "Qw12er").after sampleWorld).links.lookup "Qw12er"
      = some { otherLink with Visits := 3 } ∧
    Lifecycle (.resolve "Qw12er") sampleWorld "Qw12er" :=
  ⟨rfl, fun link h _ => by rw [sampleWorld_other link h]; decide, by decide, by decide,
    C12_record_lifecycle sampleWorld (.resolve "Qw12er") "Qw12er" rfl
      (fun link h _ => by rw [sampleWorld_other link h]; decide)⟩

/-! ## The lock in the `/delete/` handler -/

/-- C13, the code at a failing input. In the sample state, with the lock free,
the owner `1.1.1.1` asks to delete `aZ3kq1`. The handler takes the write lock,
removes the record, and calls `saveDatabase` while it holds the lock: the
request for the read lock is made in a state where the lock is held by a
writer, it is never granted, nothing is written to the file, the handler does
not return, and a later Resolve of the other code waits for the lock. The
`/shorten` handler releases the lock before it saves: it returns with the
snapshot written and the lock free, and a Resolve then goes through. -/
theorem C13_delete_saves_under_write_lock :
    sampleWorld.mutex = .free ∧
    (∃ w1, deleteHandler "aZ3kq1" "1.1.1.1" sampleWorld = .blocked w1 ∧
      w1.mutex = .writer ∧
      mutexRLock w1 = .blocked w1 ∧
      saveDatabase w1 = .blocked w1 ∧
      w1.dbFile = sampleWorld.dbFile ∧
      resolve "Qw12er" w1 = .blocked w1 ∧
      ∀ r w2, deleteHandler "aZ3kq1" "1.1.1.1" sampleWorld ≠ .done r w2) ∧
    (∃ r w2, shortenHandler "POST" "example.com" "1.1.1.1" "http://localhost:8974" 5000
        sampleWorld = .done r w2 ∧
      w2.mutex = .free ∧
      w2.dbFile = .snapshot (w2.links.entries.map fun e => e.2) ∧
      ∃ w3, resolve "Qw12er" w2 = .done (some "http://go.dev") w3) := by
  have hdel := deleteHandler_owner sampleWorld "aZ3kq1" "1.1.1.1" sampleLink rfl (by decide)
    (by decide) rfl
  have hsh := shortenHandler_run sampleWorld "example.com" "1.1.1.1" "http://localhost:8974"
    5000 rfl (by decide)
  refine ⟨rfl, ⟨_, hdel, rfl, rfl, rfl, rfl, rfl, ?_⟩, ⟨_, _, hsh, rfl, rfl, ?_⟩⟩
  · intro r w2 h
    rw [hdel] at h
    cases h
  · exact ⟨_, resolve_found _ "Qw12er" otherLink rfl (by decide)⟩

end LinkShorter
